import Mathlib

/-!
Shallow embedding of the grid layout engine (src/layout/grid.rs) and the PDF
exporter (src/export/pdf.rs) of the typesetting system, together with proofs
of the properties stated in its specification.

The two source files under verification are translated definition by
definition.  Auxiliary types that the sources use but that live outside the
two files (Length, Linear, Fractional, Gen/Spec, Regions, Frame, Constraints,
the font loader, the PDF object writer) are modelled from the specification's
data-model section; each such definition carries a doc comment saying so.
-/

/- The rational operations in the library are marked irreducible, which
blocks `decide`/`rfl` evaluation of the executable model on concrete inputs;
restore their reducibility (the kernel is unaffected by this attribute). -/
set_option allowUnsafeReducibility true in
attribute [semireducible] Rat.add Rat.sub Rat.mul Rat.inv

namespace Typst

/-- Modelled from the spec: a signed linear measure that is either finite or
positive infinity.  The source backs it with an f64 number of points; `fin q`
is a finite value, `inf` is positive infinity.  NaN does not occur in the
spec's data model and the corner operations that would produce it in floating
point (such as `0 · ∞`) are given harmless values that no theorem relies on. -/
inductive Length where
  | fin (val : ℚ)
  | inf
deriving DecidableEq, Repr

namespace Length

def zero : Length := fin 0

def add : Length → Length → Length
  | fin a, fin b => fin (a + b)
  | _, _ => inf

/-- Subtraction.  The spec admits only positive infinity; `fin a - inf` never
occurs in the layouter and is clamped to zero here. -/
def sub : Length → Length → Length
  | inf, _ => inf
  | fin a, fin b => fin (a - b)
  | fin _, inf => fin 0

/-- Boolean `self <= other`. -/
def ble : Length → Length → Bool
  | fin a, fin b => decide (a ≤ b)
  | inf, fin _ => false
  | _, inf => true

/-- Boolean `self < other`. -/
def blt : Length → Length → Bool
  | fin a, fin b => decide (a < b)
  | fin _, inf => true
  | inf, _ => false

/-- `fits(q)` returns `self >= q` (spec data model). -/
def fits (self q : Length) : Bool := ble q self

/-- Division by a scalar count (used with a positive count in the source;
division by zero never occurs on the executed paths). -/
def divNat : Length → ℕ → Length
  | fin a, n => fin (a / (n : ℚ))
  | inf, _ => inf

def maxL : Length → Length → Length
  | fin a, fin b => fin (max a b)
  | _, _ => inf

def isFinite : Length → Bool
  | fin _ => true
  | inf => false

def isInfinite (x : Length) : Bool := !x.isFinite

def sum (l : List Length) : Length := l.foldl add zero

end Length

/-- Modelled from the spec: a nonnegative scalar denoting a share of leftover
space; the source backs it with an f64, so it supports `is_zero`, `is_finite`
and division producing a ratio. -/
inductive Fractional where
  | fin (val : ℚ)
  | inf
deriving DecidableEq, Repr

namespace Fractional

def zero : Fractional := fin 0

def add : Fractional → Fractional → Fractional
  | fin a, fin b => fin (a + b)
  | _, _ => inf

def isZero : Fractional → Bool
  | fin a => decide (a = 0)
  | inf => false

def isFinite : Fractional → Bool
  | fin _ => true
  | inf => false

/-- The ratio `v / fr` (f64 division in the source).  The `fin a / fin 0` and
`inf / inf` corners are unreachable behind the source's `is_zero` and
`is_finite` guards. -/
def div : Fractional → Fractional → Fractional
  | fin a, fin b => fin (a / b)
  | inf, fin _ => inf
  | _, inf => fin 0

/-- Scalar multiplication of a length by a ratio, as in `ratio * remaining`.
A positive finite ratio times infinity is infinity, exactly as for f64. -/
def mulLength : Fractional → Length → Length
  | fin q, Length.fin a => Length.fin (q * a)
  | fin q, Length.inf => if 0 < q then Length.inf else Length.fin 0
  | inf, _ => Length.inf

end Fractional

/-- Modelled from the spec: an affine combination of an absolute length and a
scalar fraction of a base, `absolute + relative · base`. -/
structure Linear where
  abs : ℚ
  rel : ℚ
deriving DecidableEq, Repr

def Linear.zero : Linear := ⟨0, 0⟩

def Linear.resolve (l : Linear) (base : Length) : Length :=
  Length.add (Length.fin l.abs) (Fractional.mulLength (Fractional.fin l.rel) base)

/-- Defines how to size a grid cell along an axis (src/layout/grid.rs). -/
inductive TrackSizing where
  | Auto
  | Linear (l : Linear)
  | Fractional (f : Fractional)
deriving DecidableEq, Repr

def TrackSizing.isAuto : TrackSizing → Bool
  | .Auto => true
  | _ => false

def TrackSizing.isLin : TrackSizing → Bool
  | .Linear _ => true
  | _ => false

def TrackSizing.isFrac : TrackSizing → Bool
  | .Fractional _ => true
  | _ => false

/-- Modelled from the spec: the two spec axes. -/
inductive SpecAxis where
  | horizontal
  | vertical
deriving DecidableEq, Repr

/-- Modelled from the spec: a layouting direction; only its axis matters to
the grid code. -/
inductive Dir where
  | ltr
  | rtl
  | ttb
  | btt
deriving DecidableEq, Repr

def Dir.axis : Dir → SpecAxis
  | .ltr => .horizontal
  | .rtl => .horizontal
  | .ttb => .vertical
  | .btt => .vertical

/-- Modelled from the spec: a pair indexed by the spec axes x and y. -/
structure Spec (α : Type _) where
  x : α
  y : α
deriving DecidableEq, Repr

/-- Modelled from the spec: a pair indexed by the logical axes. -/
structure Gen (α : Type _) where
  inline : α
  block : α
deriving DecidableEq, Repr

namespace Spec

def get : Spec α → SpecAxis → α
  | s, .horizontal => s.x
  | s, .vertical => s.y

def set : Spec α → SpecAxis → α → Spec α
  | s, .horizontal, v => { s with x := v }
  | s, .vertical, v => { s with y := v }

def splat (v : α) : Spec α := ⟨v, v⟩

def map (f : α → β) : Spec α → Spec β
  | ⟨a, b⟩ => ⟨f a, f b⟩

end Spec

namespace Gen

/-- Conversion to a `Spec` pair via the chosen block axis (spec data model). -/
def toSpec (g : Gen α) (blockAxis : SpecAxis) : Spec α :=
  match blockAxis with
  | .vertical => ⟨g.inline, g.block⟩
  | .horizontal => ⟨g.block, g.inline⟩

end Gen

/-- Modelled from the spec: a 2D size in spec axes. -/
structure Size where
  w : Length
  h : Length
deriving DecidableEq, Repr

namespace Size

def get : Size → SpecAxis → Length
  | s, .horizontal => s.w
  | s, .vertical => s.h

def set : Size → SpecAxis → Length → Size
  | s, .horizontal, v => { s with w := v }
  | s, .vertical, v => { s with h := v }

def toSpec (s : Size) : Spec Length := ⟨s.w, s.h⟩

end Size

def Gen.toSize (g : Gen Length) (blockAxis : SpecAxis) : Size :=
  match blockAxis with
  | .vertical => ⟨g.inline, g.block⟩
  | .horizontal => ⟨g.block, g.inline⟩

/-- Modelled from the spec: a 2D point in spec axes. -/
structure Point where
  px : Length
  py : Length
deriving DecidableEq, Repr

def Point.add (a b : Point) : Point := ⟨Length.add a.px b.px, Length.add a.py b.py⟩

def Gen.toPoint (g : Gen Length) (blockAxis : SpecAxis) : Point :=
  match blockAxis with
  | .vertical => ⟨g.inline, g.block⟩
  | .horizontal => ⟨g.block, g.inline⟩

/-- Modelled from the spec: the available-space context threaded through
layout — current region size, relative-length base, a backlog of further
regions, an optional repeating final region and per-axis expansion flags. -/
structure Regions where
  current : Size
  base : Size
  backlog : List Size
  last : Option Size
  expand : Spec Bool
deriving DecidableEq, Repr

namespace Regions

/-- A single region. -/
def one (size base : Size) (expand : Spec Bool) : Regions :=
  { current := size, base := base, backlog := [], last := none, expand := expand }

/-- Advance to the next region: pop the backlog, else repeat `last`. -/
def next (r : Regions) : Regions :=
  match r.backlog with
  | s :: rest => { r with current := s, base := s, backlog := rest }
  | [] =>
    match r.last with
    | some s => { r with current := s, base := s }
    | none => r

/-- Whether we are on the final repeating region. -/
def inFullLast (r : Regions) : Bool :=
  r.backlog.isEmpty &&
    (match r.last with
     | none => true
     | some s => decide (r.current = s))

end Regions

/-- Modelled from the spec: the four per-axis captures recording which region
parameters a frame result depends on, plus the original expand mode. -/
structure Constraints where
  min : Spec (Option Length)
  max : Spec (Option Length)
  exact : Spec (Option Length)
  base : Spec (Option Length)
  expand : Spec Bool
deriving DecidableEq, Repr

def Constraints.new (expand : Spec Bool) : Constraints :=
  { min := Spec.splat none, max := Spec.splat none, exact := Spec.splat none,
    base := Spec.splat none, expand := expand }

/-- Modelled from the spec: a laid-out box of fixed size with a baseline and
an ordered list of placed child frames. -/
inductive Frame where
  | mk (size : Size) (baseline : Length) (elements : List (Point × Frame))

def Frame.size : Frame → Size
  | .mk s _ _ => s

def Frame.baseline : Frame → Length
  | .mk _ b _ => b

def Frame.elements : Frame → List (Point × Frame)
  | .mk _ _ e => e

def Frame.new (size : Size) (baseline : Length) : Frame := .mk size baseline []

/-- Keep the frame as a nested child (spec data model). -/
def Frame.pushFrame : Frame → Point → Frame → Frame
  | .mk s b e, pos, child => .mk s b (e ++ [(pos, child)])

/-- Merging a frame at a point inlines its placements (spec data model). -/
def Frame.mergeFrame : Frame → Point → Frame → Frame
  | .mk s b e, pos, child =>
    .mk s b (e ++ child.elements.map (fun pc => (Point.add pos pc.1, pc.2)))

/-- A value paired with the constraints under which it may be reused. -/
structure Constrained (α : Type _) where
  item : α
  constraints : Constraints

def Frame.constrain (f : Frame) (c : Constraints) : Constrained Frame := ⟨f, c⟩

/-- Modelled from the spec: a child node is a layout capability which, given
regions, produces one constrained frame per consumed region — at least one.
The guaranteed first frame is kept separately to encode that contract. -/
structure LayoutNode where
  layout : Regions → Constrained Frame × List (Constrained Frame)

/-- A node that arranges its children in a grid (src/layout/grid.rs). -/
structure GridNode where
  dirs : Gen Dir
  tracks : Gen (List TrackSizing)
  gutter : Gen (List TrackSizing)
  children : List LayoutNode

/-- Produced by initial row layout; auto and linear rows are already
finished, fractional rows not yet (src/layout/grid.rs). -/
inductive Row where
  | frame (f : Frame)
  | fr (v : Fractional) (y : ℕ)

/-- Performs grid layout (src/layout/grid.rs, struct GridLayouter). -/
structure GridLayouter where
  inline : SpecAxis
  block : SpecAxis
  expand : Spec Bool
  cols : List TrackSizing
  rows : List TrackSizing
  children : List LayoutNode
  regions : Regions
  rcols : List Length
  full : Length
  used : Gen Length
  fr : Fractional
  lrows : List Row
  constraints : Constraints
  finished : List (Constrained Frame)

/-- `tracks.get(idx).or(tracks.last()).copied().unwrap_or(default)` from
`GridLayouter::new`. -/
def getOr (tracks : List TrackSizing) (idx : ℕ) (default : TrackSizing) : TrackSizing :=
  ((tracks[idx]?).or tracks.getLast?).getD default

/-- Prepare grid layout by unifying content and gutter tracks
(src/layout/grid.rs, `GridLayouter::new`). -/
def GridLayouter.new (grid : GridNode) (regions0 : Regions) : GridLayouter :=
  let c := max grid.tracks.inline.length 1
  let r :=
    let len := grid.children.length
    let given := grid.tracks.block.length
    let needed := len / c + min (len % c) 1
    max given needed
  let auto := TrackSizing.Auto
  let zero := TrackSizing.Linear Linear.zero
  let cols := (List.range c).flatMap
    (fun x => [getOr grid.tracks.inline x auto, getOr grid.gutter.inline x zero])
  let rows := (List.range r).flatMap
    (fun y => [getOr grid.tracks.block y auto, getOr grid.gutter.block y zero])
  let cols := cols.dropLast
  let rows := rows.dropLast
  let inline := grid.dirs.inline.axis
  let block := grid.dirs.block.axis
  let full := regions0.current.get block
  let rcols := List.replicate cols.length Length.zero
  let expand := regions0.expand
  let regions := { regions0 with expand := (Gen.mk true false).toSpec block }
  { inline := inline, block := block, expand := expand, cols := cols, rows := rows,
    children := grid.children, constraints := Constraints.new expand,
    regions := regions, rcols := rcols, lrows := [], full := full,
    used := Gen.mk Length.zero Length.zero, fr := Fractional.zero, finished := [] }

/-- Get the node in the cell in column `x` and row `y`; gutter cells are
`None`.  In-range indices are a precondition in the source. -/
def GridLayouter.cell (l : GridLayouter) (x y : ℕ) : Option LayoutNode :=
  if x % 2 = 0 && y % 2 = 0 then
    let c := 1 + l.cols.length / 2
    l.children[(y / 2) * c + x / 2]?
  else none

/-- A size where the inline axis spans the whole grid and the block axis the
given length. -/
def GridLayouter.complete (l : GridLayouter) (block : Length) : Size :=
  (Gen.mk l.used.inline block).toSize l.block

/-- The case classification local to `measure_columns`. -/
inductive Case where
  | purelyLinear
  | fitting
  | exact
  | overflowing
deriving DecidableEq, Repr

/-- The first loop of `measure_columns`: resolve every linear column against
the base into its `rcol` slot, sum the resolved linear sizes, sum the
fractions of all fractional tracks and mark the case `fitting` whenever an
auto or fractional track is seen. -/
def resolvePass (base : Length) (case : Case) :
    List TrackSizing → List Length → List Length × Length × Fractional × Case
  | col :: cols, rcol :: rcols =>
    match col with
    | .Auto =>
      let (rest, linear, fr, c) := resolvePass base Case.fitting cols rcols
      (rcol :: rest, linear, fr, c)
    | .Linear v =>
      let resolved := v.resolve base
      let (rest, linear, fr, c) := resolvePass base case cols rcols
      (resolved :: rest, Length.add resolved linear, fr, c)
    | .Fractional v =>
      let (rest, linear, fr, c) := resolvePass base Case.fitting cols rcols
      (rcol :: rest, linear, Fractional.add v fr, c)
  | _, rcols => (rcols, Length.zero, Fractional.zero, case)

/-- One iteration of the inner loop of `measure_auto_columns`: lay the cell
(if any) into a single non-expanding region of inline size `available` and
infinite block size, with the block base resolved for linear rows, and widen
the resolved width to the produced inline size. -/
def GridLayouter.measureCellStep (l : GridLayouter) (available : Length) (x : ℕ)
    (resolved : Length) (y : ℕ) : Length :=
  match l.cell x y with
  | some node =>
    let size := (Gen.mk available Length.inf).toSize l.block
    let regions := Regions.one size l.regions.base (Spec.splat false)
    let regions :=
      match l.rows[y]? with
      | some (.Linear v) =>
        { regions with base :=
          regions.base.set l.block (v.resolve (l.regions.base.get l.block)) }
      | _ => regions
    let frame := (node.layout regions).1.item
    Length.maxL resolved (frame.size.get l.inline)
  | none => resolved

/-- Measure one auto column: the maximum produced inline size over all of
its rows (src/layout/grid.rs, `measure_auto_columns`, inner loop). -/
def GridLayouter.measureOneAuto (l : GridLayouter) (available : Length) (x : ℕ) : Length :=
  (List.range l.rows.length).foldl (l.measureCellStep available x) Length.zero

/-- The per-column loop of `measure_auto_columns`: fill each auto column's
slot with its measured natural width, summing and counting the auto
columns. -/
def measureAutoList (l : GridLayouter) (available : Length) :
    ℕ → List TrackSizing → List Length → List Length × Length × ℕ
  | x, col :: cols, rcol :: rcols =>
    let (rest, auto, count) := measureAutoList l available (x + 1) cols rcols
    match col with
    | .Auto =>
      let resolved := l.measureOneAuto available x
      (resolved :: rest, Length.add resolved auto, count + 1)
    | _ => (rcol :: rest, auto, count)
  | _, _, rcols => (rcols, Length.zero, 0)

/-- Measure the size that is available to auto columns
(src/layout/grid.rs, `measure_auto_columns`). -/
def GridLayouter.measureAutoColumns (l : GridLayouter) (available : Length) :
    GridLayouter × Length × ℕ :=
  let m := measureAutoList l available 0 l.cols l.rcols
  ({ l with rcols := m.1 }, m.2.1, m.2.2)

/-- The loop of `grow_fractional_columns`: overwrite each fractional column's
slot with its proportional share of the remaining space, skipping non-finite
ratios. -/
def growList (remaining : Length) (fr : Fractional) :
    List TrackSizing → List Length → List Length
  | col :: cols, rcol :: rcols =>
    let rcol :=
      match col with
      | .Fractional v =>
        let ratio := Fractional.div v fr
        if ratio.isFinite then Fractional.mulLength ratio remaining else rcol
      | _ => rcol
    rcol :: growList remaining fr cols rcols
  | _, rcols => rcols

/-- Distribute remaining space to fractional columns
(src/layout/grid.rs, `grow_fractional_columns`). -/
def GridLayouter.growFractionalColumns (l : GridLayouter) (remaining : Length)
    (fr : Fractional) : GridLayouter :=
  { l with rcols := growList remaining fr l.cols l.rcols }

/-- The first loop of `shrink_auto_columns`: count the overlarge auto columns
and sum the widths of the auto columns that are not overlarge. -/
def shrinkStats (fair : Length) : List TrackSizing → List Length → ℕ × Length
  | col :: cols, rcol :: rcols =>
    let (o, s) := shrinkStats fair cols rcols
    if col = TrackSizing.Auto then
      if Length.blt fair rcol then (o + 1, s) else (o, Length.add rcol s)
    else (o, s)
  | _, _ => (0, Length.zero)

/-- The second loop of `shrink_auto_columns`: overwrite each overlarge auto
column with the equal share. -/
def shrinkList (fair share : Length) : List TrackSizing → List Length → List Length
  | col :: cols, rcol :: rcols =>
    (if col = TrackSizing.Auto && Length.blt fair rcol then share else rcol) ::
      shrinkList fair share cols rcols
  | _, rcols => rcols

/-- Redistribute space to auto columns so that each gets a fair share
(src/layout/grid.rs, `shrink_auto_columns`). -/
def GridLayouter.shrinkAutoColumns (l : GridLayouter) (available : Length)
    (count : ℕ) : GridLayouter :=
  let fair := available.divNat count
  let stats := shrinkStats fair l.cols l.rcols
  let redistribute := Length.sub available stats.2
  let share := redistribute.divNat stats.1
  { l with rcols := shrinkList fair share l.cols l.rcols }

/-- Determine all column sizes (src/layout/grid.rs, `measure_columns`).  The
source keeps the case local; it is returned here so the theorems can speak
about it. -/
def GridLayouter.measureColumns (l : GridLayouter) : GridLayouter × Case :=
  let current := l.regions.current.get l.inline
  let base := l.regions.base.get l.inline
  let rp := resolvePass base Case.purelyLinear l.cols l.rcols
  let linear := rp.2.1
  let fr := rp.2.2.1
  let l := { l with rcols := rp.1 }
  let available := Length.sub current linear
  let step :=
    if Length.ble Length.zero available then
      let m := l.measureAutoColumns available
      let remaining := Length.sub available m.2.1
      if Length.ble Length.zero remaining then
        if !fr.isZero then (m.1.growFractionalColumns remaining fr, Case.exact)
        else (m.1, rp.2.2.2)
      else (m.1.shrinkAutoColumns available m.2.2, Case.exact)
    else (l, if rp.2.2.2 = Case.fitting then Case.overflowing else rp.2.2.2)
  let l := step.1
  let case := step.2
  let l := { l with constraints :=
    { l.constraints with base := l.regions.base.toSpec.map some } }
  let l :=
    match case with
    | Case.purelyLinear => l
    | Case.fitting =>
      { l with constraints :=
        { l.constraints with min := l.constraints.min.set l.inline (some l.used.inline) } }
    | Case.exact =>
      { l with constraints :=
        { l.constraints with exact := l.constraints.exact.set l.inline (some current) } }
    | Case.overflowing =>
      { l with constraints :=
        { l.constraints with max := l.constraints.max.set l.inline (some linear) } }
  ({ l with used := { l.used with inline := Length.sum l.rcols } }, case)

/-- Layout a row with a fixed size along the block axis and return its frame
(src/layout/grid.rs, `layout_single_row`). -/
def GridLayouter.layoutSingleRow (l : GridLayouter) (block : Length) (y : ℕ) : Frame :=
  let size := l.complete block
  let start : Frame × Gen Length := (Frame.new size size.h, Gen.mk Length.zero Length.zero)
  (l.rcols.enum.foldl
    (fun acc xr =>
      let (output, pos) := acc
      let (x, rcol) := xr
      let output :=
        match l.cell x y with
        | some node =>
          let size := (Gen.mk rcol block).toSize l.block
          let base := l.regions.base
          let sizing := (Gen.mk (l.cols.getD x TrackSizing.Auto)
            (l.rows.getD y TrackSizing.Auto)).toSpec l.block
          let base := if sizing.x ≠ TrackSizing.Auto then { base with w := size.w } else base
          let base := if sizing.y ≠ TrackSizing.Auto then { base with h := size.h } else base
          let regions := Regions.one size base (Spec.splat true)
          let frame := (node.layout regions).1
          output.pushFrame (pos.toPoint l.block) frame.item
        | none => output
      (output, { pos with inline := Length.add pos.inline rcol }))
    start).1

/-- Push a row frame into the current region
(src/layout/grid.rs, `push_row`). -/
def GridLayouter.pushRow (l : GridLayouter) (frame : Frame) : GridLayouter :=
  let length := frame.size.get l.block
  let current := l.regions.current.set l.block
    (Length.sub (l.regions.current.get l.block) length)
  { l with
    regions := { l.regions with current := current },
    used := { l.used with block := Length.add l.used.block length },
    lrows := l.lrows ++ [Row.frame frame] }

/-- Finish rows for one region (src/layout/grid.rs, `finish_region`). -/
def GridLayouter.finishRegion (l : GridLayouter) : GridLayouter :=
  let block := if l.fr.isZero || l.full.isInfinite then l.used.block else l.full
  let size := l.complete block
  let constraints := { l.constraints with min := l.constraints.min.set l.block (some block) }
  let output := Frame.new size size.h
  let remaining := Length.sub l.full l.used.block
  let output := (l.lrows.foldl
    (fun acc row =>
      let output := acc.1
      let frameOpt :=
        match row with
        | Row.frame f => some f
        | Row.fr v y =>
          let ratio := Fractional.div v l.fr
          if remaining.isFinite && ratio.isFinite then
            some (l.layoutSingleRow (ratio.mulLength remaining) y)
          else none
      match frameOpt with
      | some frame =>
        let point := (Gen.mk Length.zero acc.2.block).toPoint l.block
        (Frame.mergeFrame output point frame,
         { acc.2 with block := Length.add acc.2.block (frame.size.get l.block) })
      | none => acc)
    (output, Gen.mk Length.zero Length.zero)).1
  let regions := l.regions.next
  { l with
    regions := regions,
    full := regions.current.get l.block,
    used := { l.used with block := Length.zero },
    fr := Fractional.zero,
    lrows := [],
    finished := l.finished ++ [output.constrain constraints],
    constraints := Constraints.new l.expand }

/-- The skip-to-fitting-region loop of `layout_linear_row`.  The source's
while loop advances the regions each iteration and stops once the backlog is
exhausted; the fuel passed by `layoutLinearRow` strictly bounds the number of
iterations, so the fuel-exhausted branch is never taken. -/
def GridLayouter.linearSkipLoop (l : GridLayouter) (frame : Frame) (length : Length)
    (y : ℕ) : ℕ → GridLayouter
  | 0 => l.pushRow frame
  | fuel + 1 =>
    if !(l.regions.current.get l.block).fits length && !l.regions.inFullLast then
      let l := { l with constraints :=
        { l.constraints with max :=
          l.constraints.max.set l.block (some (Length.add l.used.block length)) } }
      let l := l.finishRegion
      if y % 2 = 1 then l
      else l.linearSkipLoop frame length y fuel
    else l.pushRow frame

/-- Layout a row with linear sizing along the block axis; it cannot break
across regions but may force a region break
(src/layout/grid.rs, `layout_linear_row`). -/
def GridLayouter.layoutLinearRow (l : GridLayouter) (v : Linear) (y : ℕ) : GridLayouter :=
  let base := l.regions.base.get l.block
  let resolved := v.resolve base
  let frame := l.layoutSingleRow resolved y
  let length := frame.size.get l.block
  l.linearSkipLoop frame length y (l.regions.backlog.length + 2)

/-! ## PDF exporter (src/export/pdf.rs) -/

/-- Modelled from the spec: the index a font has in the external loader.  The
sentinel used before any font was set is `FontIndex::MAX`. -/
abbrev FontIndex := ℕ

/-- The `FontIndex::MAX` sentinel. -/
def fontIndexMax : FontIndex := 2 ^ 64 - 1

/-- The `usize::MAX` sentinel used by `write_page` for the active font. -/
def usizeMax : ℕ := 2 ^ 64 - 1

/-- Modelled from the spec: a 2D position in points, as carried by layout
actions and page dimensions. -/
structure Pos2 where
  x : ℚ
  y : ℚ
deriving DecidableEq, Repr

/-- Modelled from the spec: the input language of the PDF emitter. -/
inductive LayoutAction where
  | moveAbsolute (pos : Pos2)
  | setFont (index : FontIndex) (size : ℚ)
  | writeText (text : List Char)
  | debugBox
deriving DecidableEq, Repr

/-- Modelled from the spec: a laid-out page — its dimensions in points and
its list of layout actions. -/
structure Layout where
  dimensions : Pos2
  actions : List LayoutAction
deriving DecidableEq, Repr

/-- Modelled from the spec: a laid-out list of pages. -/
abbrev MultiLayout := List Layout

/-- Modelled from the spec: the information the exporter reads from an
external toddle font.  Table reads are modelled as total accessors; a
loader-side table read failure aborts the whole export with a Font error and
is outside the claims proved here.  `encode` is the font's fallible text
encoder and `data` are the raw font bytes. -/
structure Font where
  psName : Option String
  unitsPerEm : ℚ
  xMin : ℚ
  yMin : ℚ
  xMax : ℚ
  yMax : ℚ
  macStyleItalic : Bool
  advanceWidths : List ℚ
  isFixedPitch : Bool
  italicAngle : ℚ
  sTypoAscender : ℚ
  sTypoDescender : ℚ
  sCapHeight : Option ℚ
  usWeightClass : ℚ
  cmap : List (Char × ℕ)
  data : List ℕ
  encode : List Char → Option (List ℕ)

/-- Modelled from the spec: the external font loader interface — fonts by
index, table-level subsetting returning raw bytes or an error, and parsing a
font back from raw bytes.  Cloning a font is the identity. -/
structure FontLoader where
  get : FontIndex → Font
  subsetted : Font → List Char → List String → Except Unit (List ℕ)
  fromBytes : List ℕ → Except Unit Font

/-- The retained table list of `subset_fonts`; all other tables are
dropped. -/
def subsetTables : List String :=
  ["name", "OS/2", "post", "head", "hhea", "hmtx", "maxp",
   "cmap", "cvt ", "fpgm", "prep", "loca", "glyf"]

/-- Lookup in an association list modelling a HashMap. -/
def assocFind [DecidableEq α] : List (α × β) → α → Option β
  | [], _ => none
  | (a, b) :: rest, k => if a = k then some b else assocFind rest k

/-- In-place update (or append) in an association list modelling
`HashMap::entry` followed by mutation of the value. -/
def assocSet [DecidableEq α] : List (α × β) → α → β → List (α × β)
  | [], k, v => [(k, v)]
  | (a, b) :: rest, k, v =>
    if a = k then (k, v) :: rest else (a, b) :: assocSet rest k v

/-- Insert a character into a used-character set, modelled as a
duplicate-free list in insertion order (the set contents are deterministic;
only the HashSet iteration order is not, and it is a separate parameter). -/
def charInsert (s : List Char) (c : Char) : List Char :=
  if c ∈ s then s else s ++ [c]

def charExtend (s : List Char) (t : List Char) : List Char :=
  t.foldl charInsert s

/-- The mutable state of the glyph-collection walk in `subset_fonts`. -/
structure SubsetWalk where
  fontChars : List (FontIndex × List Char)
  oldToNew : List (FontIndex × ℕ)
  newToOld : List (ℕ × FontIndex)
  activeFont : FontIndex
deriving Repr

/-- One action of the glyph-collection walk in `subset_fonts`. -/
def walkStep (w : SubsetWalk) (a : LayoutAction) : SubsetWalk :=
  match a with
  | .writeText text =>
    let cur := (assocFind w.fontChars w.activeFont).getD []
    { w with fontChars := assocSet w.fontChars w.activeFont (charExtend cur text) }
  | .setFont index _ =>
    let w := { w with activeFont := index }
    let nextId := w.oldToNew.length
    let newId := (assocFind w.oldToNew w.activeFont).getD nextId
    let oldToNew :=
      if (assocFind w.oldToNew w.activeFont).isSome then w.oldToNew
      else w.oldToNew ++ [(w.activeFont, nextId)]
    let newToOld :=
      if (assocFind w.newToOld newId).isSome then w.newToOld
      else w.newToOld ++ [(newId, w.activeFont)]
    { w with oldToNew := oldToNew, newToOld := newToOld }
  | _ => w

/-- The whole glyph-collection walk over every action of every layout. -/
def walkOf (layouts : MultiLayout) : SubsetWalk :=
  layouts.foldl (fun w l => l.actions.foldl walkStep w)
    { fontChars := [], oldToNew := [], newToOld := [], activeFont := fontIndexMax }

/-- The subsetting loop of `subset_fonts` over the dense indices
`index .. index + n`.  The outer `Option` models a Rust panic (`none`): the
source indexes `new_to_old[&index]` and `font_chars[&old_index]` with `[]`.
The inner `Except` carries the loader errors the source propagates with `?`.
A failed `subsetted` call falls back to the unsubsetted clone. -/
def subsetLoop (loader : FontLoader) (order : List Char → List Char)
    (fontChars : List (FontIndex × List Char)) (newToOld : List (ℕ × FontIndex)) :
    ℕ → ℕ → Option (Except Unit (List Font))
  | _, 0 => some (Except.ok [])
  | index, n + 1 =>
    match assocFind newToOld index with
    | none => none
    | some oldIndex =>
      let font := loader.get oldIndex
      match assocFind fontChars oldIndex with
      | none => none
      | some chars =>
        let subsetted :=
          match loader.subsetted font (order chars) subsetTables with
          | Except.ok data =>
            match loader.fromBytes data with
            | Except.ok f => Except.ok f
            | Except.error e => Except.error e
          | Except.error _ => Except.ok font
        match subsetted with
        | Except.error e => some (Except.error e)
        | Except.ok f =>
          match subsetLoop loader order fontChars newToOld (index + 1) n with
          | none => none
          | some (Except.error e) => some (Except.error e)
          | some (Except.ok rest) => some (Except.ok (f :: rest))

/-- Subset all fonts and assign a new PDF-internal dense index to each one
(src/export/pdf.rs, `subset_fonts`).  `order` is the iteration order of the
used-character HashSet: given the deterministic set contents it yields the
sequence the subsetter receives; the source leaves it unspecified. -/
def subsetFonts (layouts : MultiLayout) (loader : FontLoader)
    (order : List Char → List Char) :
    Option (Except Unit (List Font × List (FontIndex × ℕ))) :=
  let w := walkOf layouts
  match subsetLoop loader order w.fontChars w.newToOld 0 w.oldToNew.length with
  | none => none
  | some (Except.error e) => some (Except.error e)
  | some (Except.ok fonts) => some (Except.ok (fonts, w.oldToNew))

/-- Which range of PDF IDs will be used for which contents
(src/export/pdf.rs, struct Offsets). -/
structure Offsets where
  catalog : ℕ
  pageTree : ℕ
  pages : ℕ × ℕ
  contents : ℕ × ℕ
  fonts : ℕ × ℕ
deriving DecidableEq, Repr

/-- Calculate the object id ranges before writing
(src/export/pdf.rs, `calculate_offsets`).  `Ref` is a 32-bit id in the
external writer, so the usize counts are truncated where the source casts
them. -/
def calculateOffsets (layoutCount fontCount : ℕ) : Offsets :=
  let catalog := 1
  let pageTree := catalog + 1
  let pages := (pageTree + 1, pageTree + layoutCount % 2 ^ 32)
  let contents := (pages.2 + 1, pages.2 + layoutCount % 2 ^ 32)
  let fonts := (contents.2 + 1, contents.2 + 5 * (fontCount % 2 ^ 32))
  { catalog := catalog, pageTree := pageTree, pages := pages,
    contents := contents, fonts := fonts }

/-- `start ..= end` as a list (src/export/pdf.rs, fn ids). -/
def idsRange (p : ℕ × ℕ) : List ℕ := List.range' p.1 (p.2 + 1 - p.1)

/-- A text operator of a page content stream (`Tf`, `Tm`, `Tj`). -/
inductive TextOp where
  | tf (font : ℕ) (size : ℚ)
  | tm (a b c d e f : ℚ)
  | tj (bytes : List ℕ)
deriving DecidableEq, Repr

/-- Modelled from the spec: the object stream handed to the external byte
writer.  The writer serializes this stream deterministically, so byte-level
statements about the output are made at the level of this stream. -/
inductive PdfObject where
  | header (major minor : ℕ)
  | catalog (id : ℕ) (pageTree : ℕ)
  | pageTree (id : ℕ) (kids : List ℕ) (resources : List (ℕ × ℕ))
  | page (id : ℕ) (parent : ℕ) (mediaBox : ℚ × ℚ × ℚ × ℚ) (content : ℕ)
  | contentStream (id : ℕ) (ops : List TextOp)
  | type0Font (id : ℕ) (baseFont : String) (encoding : String)
      (descendant : ℕ) (toUnicode : ℕ)
  | cidFont (id : ℕ) (baseFont : String) (systemInfo : String × String × ℕ)
      (descriptor : ℕ) (widths : List (ℕ × List ℤ))
  | fontDescriptor (id : ℕ) (baseFont : String)
      (serif fixedPitch italic : Bool) (italicAngle : ℚ)
      (bbox : ℤ × ℤ × ℤ × ℤ) (ascent descent capHeight stemV : ℤ)
      (fontFile2 : ℕ)
  | cmapObj (id : ℕ) (name : String) (systemInfo : String × String × ℕ)
      (mapping : List (ℕ × Char))
  | fontStream (id : ℕ) (data : List ℕ)
  | xrefTable
  | trailer (root : ℕ)
deriving DecidableEq, Repr

/-- Truncation toward zero, as the `as GlyphUnit` cast. -/
def qTrunc (x : ℚ) : ℤ := if 0 ≤ x then x.floor else x.ceil

/-- The cached emission state of `write_page`. -/
structure PageState where
  activeFont : ℕ × ℚ
  nextPos : Option Pos2
deriving DecidableEq, Repr

/-- One action of `write_page`, producing the operators it emits and the new
state.  The outer `Option` models a panic (`font_remap[id]` on an unknown
index, or `self.fonts[...]` out of bounds); the `Except` carries
`encode_text` failures. -/
def pageStep (fonts : List Font) (remap : List (FontIndex × ℕ)) (pageH : ℚ)
    (s : PageState) (a : LayoutAction) :
    Option (Except Unit (PageState × List TextOp)) :=
  match a with
  | .moveAbsolute pos => some (Except.ok ({ s with nextPos := some pos }, []))
  | .setFont id size =>
    match assocFind remap id with
    | none => none
    | some new =>
      some (Except.ok ({ s with activeFont := (new, size) }, [TextOp.tf (new + 1) size]))
  | .writeText str =>
    let emitted :=
      match s.nextPos with
      | some pos =>
        ([TextOp.tm 1 0 0 1 pos.x (pageH - pos.y - s.activeFont.2)],
         { s with nextPos := none })
      | none => ([], s)
    match fonts[emitted.2.activeFont.1]? with
    | none => none
    | some font =>
      match font.encode str with
      | none => some (Except.error ())
      | some bytes => some (Except.ok (emitted.2, emitted.1 ++ [TextOp.tj bytes]))
  | .debugBox => some (Except.ok (s, []))

/-- The action loop of `write_page`, concatenating the emitted operators. -/
def pageLoop (fonts : List Font) (remap : List (FontIndex × ℕ)) (pageH : ℚ) :
    PageState → List LayoutAction → Option (Except Unit (List TextOp))
  | _, [] => some (Except.ok [])
  | s, a :: rest =>
    match pageStep fonts remap pageH s a with
    | none => none
    | some (Except.error e) => some (Except.error e)
    | some (Except.ok (s, ops)) =>
      match pageLoop fonts remap pageH s rest with
      | none => none
      | some (Except.error e) => some (Except.error e)
      | some (Except.ok more) => some (Except.ok (ops ++ more))

/-- Write the content of a page (src/export/pdf.rs, `write_page`). -/
def writePage (fonts : List Font) (remap : List (FontIndex × ℕ)) (id : ℕ)
    (page : Layout) : Option (Except Unit PdfObject) :=
  match pageLoop fonts remap page.dimensions.y
      { activeFont := (usizeMax, 0), nextPos := none } page.actions with
  | none => none
  | some (Except.error e) => some (Except.error e)
  | some (Except.ok ops) => some (Except.ok (PdfObject.contentStream id ops))

/-- The loop of `write_pages` over the content ids zipped with the pages. -/
def writePagesLoop (fonts : List Font) (remap : List (FontIndex × ℕ)) :
    List (ℕ × Layout) → Option (Except Unit (List PdfObject))
  | [] => some (Except.ok [])
  | (id, page) :: rest =>
    match writePage fonts remap id page with
    | none => none
    | some (Except.error e) => some (Except.error e)
    | some (Except.ok obj) =>
      match writePagesLoop fonts remap rest with
      | none => none
      | some (Except.error e) => some (Except.error e)
      | some (Except.ok more) => some (Except.ok (obj :: more))

/-- Write the contents of all pages (src/export/pdf.rs, `write_pages`). -/
def writePages (fonts : List Font) (remap : List (FontIndex × ℕ))
    (offsets : Offsets) (layouts : MultiLayout) :
    Option (Except Unit (List PdfObject)) :=
  writePagesLoop fonts remap ((idsRange offsets.contents).zip layouts)

/-- Whether the pattern is a prefix of the character list. -/
def charsHaveStart (pat s : List Char) : Bool :=
  match pat, s with
  | [], _ => true
  | p :: ps, c :: cs => p = c && charsHaveStart ps cs
  | _ :: _, [] => false

/-- Whether the pattern occurs in the character list. -/
def charsContain (pat : List Char) : List Char → Bool
  | [] => charsHaveStart pat []
  | c :: cs => charsHaveStart pat (c :: cs) || charsContain pat cs

/-- Whether a string contains "Serif" (String::contains in the source). -/
def containsSerif (name : String) : Bool :=
  charsContain "Serif".toList name.toList

/-- The five objects written for one font at its planned base id, in source
order: Type0 font, CIDFont, FontDescriptor, ToUnicode CMap, FontFile2 stream
(src/export/pdf.rs, body of the `write_fonts` loop). -/
def fontObjects (id : ℕ) (font : Font) : List PdfObject :=
  let name := font.psName.getD "unknown"
  let baseFont := "ABCDEF+" ++ name
  let systemInfo := ("Adobe", "Identity", 0)
  let ratio := 1 / font.unitsPerEm
  let toGlyph := fun (x : ℚ) => round ((1000 : ℚ) * (ratio * x))
  let widths := font.advanceWidths.map toGlyph
  [PdfObject.type0Font id baseFont "Identity-H" (id + 1) (id + 3),
   PdfObject.cidFont (id + 1) baseFont systemInfo (id + 2) [(0, widths)],
   PdfObject.fontDescriptor (id + 2) baseFont
     (containsSerif name) font.isFixedPitch font.macStyleItalic font.italicAngle
     (toGlyph font.xMin, toGlyph font.yMin, toGlyph font.xMax, toGlyph font.yMax)
     (toGlyph font.sTypoAscender) (toGlyph font.sTypoDescender)
     (toGlyph ((font.sCapHeight).getD font.sTypoAscender))
     (qTrunc (10 + (244 / 1000 : ℚ) * (font.usWeightClass - 50)))
     (id + 4),
   PdfObject.cmapObj (id + 3) "Custom" systemInfo
     (font.cmap.map (fun p => (p.2, p.1))),
   PdfObject.fontStream (id + 4) font.data]

/-- Write all the fonts, five objects each, ids advancing by five
(src/export/pdf.rs, `write_fonts`). -/
def writeFonts (startId : ℕ) : List Font → List PdfObject
  | [] => []
  | f :: rest => fontObjects startId f ++ writeFonts (startId + 5) rest

/-- Write the document catalog, the root page tree with its font resources,
and the page objects (src/export/pdf.rs, `write_preface`). -/
def writePreface (offsets : Offsets) (numFonts : ℕ) (layouts : MultiLayout) :
    List PdfObject :=
  let fontsRes := (List.range numFonts).map (fun i => (i + 1, offsets.fonts.1 + 5 * i))
  let pageObjs := ((idsRange offsets.pages).zip ((idsRange offsets.contents).zip layouts)).map
    (fun pc =>
      PdfObject.page pc.1 offsets.pageTree
        (0, 0, pc.2.2.dimensions.x, pc.2.2.dimensions.y) pc.2.1)
  PdfObject.catalog offsets.catalog offsets.pageTree ::
    PdfObject.pageTree offsets.pageTree (idsRange offsets.pages) fontsRes ::
    pageObjs

/-- The writing entry point: header, preface, page contents, fonts, xref
table, trailer (src/export/pdf.rs, `write` composed with `new`).  The
returned stream is what the external byte writer serializes. -/
def exportPdf (layouts : MultiLayout) (loader : FontLoader)
    (order : List Char → List Char) : Option (Except Unit (List PdfObject)) :=
  match subsetFonts layouts loader order with
  | none => none
  | some (Except.error e) => some (Except.error e)
  | some (Except.ok (fonts, remap)) =>
    let offsets := calculateOffsets layouts.length fonts.length
    match writePages fonts remap offsets layouts with
    | none => none
    | some (Except.error e) => some (Except.error e)
    | some (Except.ok pages) =>
      some (Except.ok
        (PdfObject.header 1 7 ::
          (writePreface offsets fonts.length layouts ++ pages ++
            writeFonts offsets.fonts.1 fonts ++
            [PdfObject.xrefTable, PdfObject.trailer offsets.catalog])))

/-! ## Helper definitions for the theorems -/

/-- Sum of the resolved-column slots that belong to tracks satisfying `p`. -/
def sumWhere (p : TrackSizing → Bool) : List TrackSizing → List Length → Length
  | col :: cols, rcol :: rcols =>
    if p col then Length.add rcol (sumWhere p cols rcols) else sumWhere p cols rcols
  | _, _ => Length.zero

/-- The rational sum of the (finite) fractions of the fractional tracks. -/
def fracQSum : List TrackSizing → ℚ
  | .Fractional (.fin q) :: cols => q + fracQSum cols
  | _ :: cols => fracQSum cols
  | [] => 0

/-- Number of auto tracks. -/
def countAuto : List TrackSizing → ℕ
  | .Auto :: cols => countAuto cols + 1
  | _ :: cols => countAuto cols
  | [] => 0

/-- Every slot belonging to a track satisfying `p` is finite. -/
def finWhere (p : TrackSizing → Bool) : List TrackSizing → List Length → Bool
  | col :: cols, rcol :: rcols =>
    (if p col then rcol.isFinite else true) && finWhere p cols rcols
  | _, _ => true

/-- The fractional sum of the fractional tracks, as `measure_columns`
accumulates it. -/
def fracSumF : List TrackSizing → Fractional
  | .Fractional v :: cols => Fractional.add v (fracSumF cols)
  | _ :: cols => fracSumF cols
  | [] => Fractional.zero

/-- Every fractional track carries a finite fraction. -/
def finFracs : List TrackSizing → Bool
  | .Fractional v :: cols => v.isFinite && finFracs cols
  | _ :: cols => finFracs cols
  | [] => true

/-- Track unification as the (amended) specification words it: for each
index the content entry is `tracks[i]`, defaulting to the last given entry
and only for an empty list to the axis default; the gutter entry likewise
defaults to the last given gutter entry and only then to `Linear(0)`; the
trailing gutter entry is popped. -/
def unifySpec (tracks gutter : List TrackSizing) (count : ℕ) : List TrackSizing :=
  ((List.range count).flatMap (fun i =>
    [(tracks[i]?).getD (tracks.getLast?.getD TrackSizing.Auto),
     (gutter[i]?).getD (gutter.getLast?.getD (TrackSizing.Linear Linear.zero))])).dropLast

/-- The content row count of a grid, as `GridLayouter::new` computes it. -/
def rCount (grid : GridNode) : ℕ :=
  let c := max grid.tracks.inline.length 1
  let len := grid.children.length
  max grid.tracks.block.length (len / c + min (len % c) 1)

/-- The id-and-reference skeleton of a PDF object: everything the object
plan of the specification talks about, with the data payloads erased. -/
inductive ObjSkel where
  | catalogS (pageTree : ℕ)
  | pageTreeS (kids : List ℕ) (resources : List (ℕ × ℕ))
  | pageS (content : ℕ)
  | contentS
  | type0S (descendant toUnicode : ℕ)
  | cidS (descriptor : ℕ)
  | descS (fontFile2 : ℕ)
  | cmapS
  | streamS
deriving DecidableEq, Repr

/-- Extract the skeleton of an emitted object; the header, xref table and
trailer are not numbered objects. -/
def skeleton : PdfObject → Option (ℕ × ObjSkel)
  | .header _ _ => none
  | .catalog id t => some (id, .catalogS t)
  | .pageTree id kids res => some (id, .pageTreeS kids res)
  | .page id _ _ content => some (id, .pageS content)
  | .contentStream id _ => some (id, .contentS)
  | .type0Font id _ _ d u => some (id, .type0S d u)
  | .cidFont id _ _ d _ => some (id, .cidS d)
  | .fontDescriptor id _ _ _ _ _ _ _ _ _ _ f => some (id, .descS f)
  | .cmapObj id _ _ _ => some (id, .cmapS)
  | .fontStream id _ => some (id, .streamS)
  | .xrefTable => none
  | .trailer _ => none

/-- The five font-object skeletons planned at base id `s`, in the order the
specification states: Type0, CIDFont, FontDescriptor, ToUnicode CMap,
FontFile, with every reference pointing at its planned id. -/
def plannedFontSkels (s : ℕ) : List (ℕ × ObjSkel) :=
  [(s, ObjSkel.type0S (s + 1) (s + 3)), (s + 1, ObjSkel.cidS (s + 2)),
   (s + 2, ObjSkel.descS (s + 4)), (s + 3, ObjSkel.cmapS), (s + 4, ObjSkel.streamS)]

/-- The object plan exactly as the specification states it for `P` pages and
`F` fonts: catalog 1 referencing page tree 2; the page tree listing the page
ids `3 .. 3+P-1` and one resource per font; page objects `3 .. 3+P-1`, each
referencing its content stream `3+P .. 3+2P-1` in order; the content
streams; then five objects per font starting at `3+2P`, in the order Type0,
CIDFont, FontDescriptor, ToUnicode CMap, FontFile, each reference pointing
at its planned id. -/
def plannedObjects (P F : ℕ) : List (ℕ × ObjSkel) :=
  (1, ObjSkel.catalogS 2) ::
    (2, ObjSkel.pageTreeS (List.range' 3 P)
      ((List.range F).map (fun i => (i + 1, 3 + 2 * P + 5 * i)))) ::
    (((List.range' 3 P).zip (List.range' (3 + P) P)).map
        (fun pc => (pc.1, ObjSkel.pageS pc.2)) ++
     (List.range' (3 + P) P).map (fun i => (i, ObjSkel.contentS)) ++
     (List.range F).flatMap (fun i => plannedFontSkels (3 + 2 * P + 5 * i)))

/-- The id plan as the specification words it directly: catalog 1, page tree
2, pages `3 .. 3+P-1`, contents `3+P .. 3+2P-1`, fonts
`3+2P .. 3+2P+5F-1`. -/
def plainOffsets (P F : ℕ) : Offsets :=
  { catalog := 1, pageTree := 2, pages := (3, 2 + P),
    contents := (3 + P, 2 + 2 * P),
    fonts := (3 + 2 * P, 2 + 2 * P + 5 * F) }

/-! ## Concrete fixtures used by the per-claim theorems -/

/-- A child frame of fixed width and height in points. -/
def childFrame (w h : ℚ) : Frame :=
  Frame.new ⟨Length.fin w, Length.fin h⟩ (Length.fin h)

/-- A child node that always produces a single fixed-size frame. -/
def fixedNode (w h : ℚ) : LayoutNode :=
  ⟨fun _ => (⟨childFrame w h, Constraints.new (Spec.splat false)⟩, [])⟩

/-- Left-to-right, top-to-bottom directions: inline is horizontal. -/
def stdDirs : Gen Dir := ⟨Dir.ltr, Dir.ttb⟩

/-- A single finite region of the given size, with base equal to it. -/
def regionsOf (w h : ℚ) : Regions :=
  { current := ⟨Length.fin w, Length.fin h⟩, base := ⟨Length.fin w, Length.fin h⟩,
    backlog := [], last := none, expand := Spec.splat false }

/-- C1 fixture: one auto column whose only child is 30pt wide, laid into a
100pt wide region. -/
def c1Grid : GridNode :=
  ⟨stdDirs, ⟨[TrackSizing.Auto], []⟩, ⟨[], []⟩, [fixedNode 30 10]⟩

/-- C2 witness fixture: three fractional columns 1fr/2fr/1fr and no
children, laid into a 400pt wide region. -/
def c2Grid : GridNode :=
  ⟨stdDirs,
   ⟨[TrackSizing.Fractional (Fractional.fin 1), TrackSizing.Fractional (Fractional.fin 2),
     TrackSizing.Fractional (Fractional.fin 1)], []⟩,
   ⟨[], []⟩, []⟩

/-- C3 fixture: a single 1fr column. -/
def c3Grid : GridNode :=
  ⟨stdDirs, ⟨[TrackSizing.Fractional (Fractional.fin 1)], []⟩, ⟨[], []⟩, []⟩

/-- C3 fixture: a region of infinite inline size. -/
def c3Regions : Regions :=
  { current := ⟨Length.inf, Length.fin 100⟩,
    base := ⟨Length.fin 100, Length.fin 100⟩,
    backlog := [], last := none, expand := Spec.splat false }

/-- C4 fixture: one given block track `Linear(10pt)` but three children in
one column, so two block tracks are missing. -/
def c4Grid : GridNode :=
  ⟨stdDirs, ⟨[], [TrackSizing.Linear ⟨10, 0⟩]⟩, ⟨[], []⟩,
   [fixedNode 1 1, fixedNode 1 1]⟩

/-- The inline size of the current region, as `measure_columns` reads it. -/
def GridLayouter.mcCurrent (l : GridLayouter) : Length :=
  l.regions.current.get l.inline

/-- The linear/fractional resolution stage of `measure_columns`. -/
def GridLayouter.mcResolve (l : GridLayouter) :
    List Length × Length × Fractional × Case :=
  resolvePass (l.regions.base.get l.inline) Case.purelyLinear l.cols l.rcols

/-- The `available` value of `measure_columns`: current minus the resolved
linear total. -/
def GridLayouter.mcAvailable (l : GridLayouter) : Length :=
  Length.sub l.mcCurrent l.mcResolve.2.1

/-- The auto measurement stage of `measure_columns`. -/
def GridLayouter.mcAuto (l : GridLayouter) : GridLayouter × Length × ℕ :=
  GridLayouter.measureAutoColumns { l with rcols := l.mcResolve.1 } l.mcAvailable

/-- The `remaining` value of `measure_columns`: available minus the measured
auto total. -/
def GridLayouter.mcRemaining (l : GridLayouter) : Length :=
  Length.sub l.mcAvailable l.mcAuto.2.1

/-- The state on which `layout_linear_row` calls `finish_region` when the
row does not fit: the block maximum constraint is set to the used block size
plus the row length (src/layout/grid.rs, lines 429-430). -/
def GridLayouter.withMaxBlock (l : GridLayouter) (len : Length) : GridLayouter :=
  { l with constraints :=
    { l.constraints with max := l.constraints.max.set l.block (some (Length.add l.used.block len)) } }

/-- The block size of the frame a linear row produces. -/
def GridLayouter.linearRowLength (l : GridLayouter) (v : Linear) (y : ℕ) : Length :=
  (l.layoutSingleRow (v.resolve (l.regions.base.get l.block)) y).size.get l.block

/-- A concrete test font used by the PDF fixtures. -/
def pdfFont : Font :=
  { psName := some "Test", unitsPerEm := 1000,
    xMin := 0, yMin := -200, xMax := 1000, yMax := 800,
    macStyleItalic := false, advanceWidths := [500],
    isFixedPitch := false, italicAngle := 0,
    sTypoAscender := 800, sTypoDescender := -200, sCapHeight := none,
    usWeightClass := 400, cmap := [('A', 1), ('B', 2)],
    data := [1, 2, 3],
    encode := fun cs => some (cs.map Char.toNat) }

/-- A loader whose subsetting always fails (C6/C10 fixtures). -/
def loaderFail : FontLoader :=
  { get := fun _ => pdfFont,
    subsetted := fun _ _ _ => Except.error (),
    fromBytes := fun _ => Except.ok pdfFont }

/-- A loader whose subsetting is sensitive to the order in which the used
characters are enumerated (C5 counterexample fixture). -/
def loaderOrd : FontLoader :=
  { get := fun _ => pdfFont,
    subsetted := fun _ cs _ => Except.ok (cs.map Char.toNat),
    fromBytes := fun bs => Except.ok { pdfFont with data := bs } }

/-- A loader whose subsetting depends only on the set of characters
(C5 amended-claim witness fixture). -/
def loaderLen : FontLoader :=
  { get := fun _ => pdfFont,
    subsetted := fun _ cs _ => Except.ok [cs.length],
    fromBytes := fun bs => Except.ok { pdfFont with data := bs } }

/-- A page writing "AB" at (72pt, 720pt) at size 12pt on an A4 page. -/
def pageAB : Layout :=
  { dimensions := ⟨595, 842⟩,
    actions := [LayoutAction.setFont 0 12,
      LayoutAction.moveAbsolute ⟨72, 720⟩,
      LayoutAction.writeText ['A', 'B']] }

/-- C10 witness fixture: font 0 is selected but never writes text. -/
def pageTwoFonts : Layout :=
  { dimensions := ⟨595, 842⟩,
    actions := [LayoutAction.setFont 0 12, LayoutAction.setFont 1 12,
      LayoutAction.writeText ['A']] }

/-- C7 witness fixture: the objects of a one-page, one-font export. -/
def c7Objs : List PdfObject :=
  match exportPdf [pageAB] loaderOrd (fun l => l) with
  | some (Except.ok objs) => objs
  | _ => []

/-- C7 witness fixture: the fonts of that export. -/
def c7Fonts : List Font :=
  match subsetFonts [pageAB] loaderOrd (fun l => l) with
  | some (Except.ok (fonts, _)) => fonts
  | _ => []

/-- C7 witness fixture: the font remap of that export. -/
def c7Remap : List (FontIndex × ℕ) :=
  match subsetFonts [pageAB] loaderOrd (fun l => l) with
  | some (Except.ok (_, remap)) => remap
  | _ => []

/-- The invariant of the glyph-collection walk: the new-to-old map is the
swap of the old-to-new map, and the assigned dense ids are exactly the
positions 0, 1, 2, … in insertion order. -/
def walkInv (w : SubsetWalk) : Prop :=
  w.newToOld = w.oldToNew.map (fun p => (p.2, p.1)) ∧
  w.oldToNew.map Prod.snd = List.range w.oldToNew.length

/-- C9 witness fixture: a layouter in front of a 10pt-high region with a
50pt-high region in the backlog. -/
def vW : Linear := ⟨20, 0⟩

/-- C9 witness fixture: the layouter state. -/
def lW : GridLayouter :=
  { inline := SpecAxis.horizontal, block := SpecAxis.vertical,
    expand := Spec.splat false,
    cols := [TrackSizing.Auto],
    rows := [TrackSizing.Auto, TrackSizing.Linear vW, TrackSizing.Auto],
    children := [],
    regions :=
      { current := ⟨Length.fin 100, Length.fin 10⟩,
        base := ⟨Length.fin 100, Length.fin 100⟩,
        backlog := [⟨Length.fin 100, Length.fin 50⟩], last := none,
        expand := Spec.splat false },
    rcols := [Length.fin 20], full := Length.fin 10,
    used := Gen.mk Length.zero Length.zero, fr := Fractional.zero,
    lrows := [], constraints := Constraints.new (Spec.splat false),
    finished := [] }

/-- Decidable equality for `Except` results, used to evaluate the model on
concrete inputs. -/
instance exceptDecEq {ε α : Type _} [DecidableEq ε] [DecidableEq α] :
    DecidableEq (Except ε α) := fun a b =>
  match a, b with
  | .error e1, .error e2 =>
    if h : e1 = e2 then .isTrue (by rw [h])
    else .isFalse (by intro he; cases he; exact h rfl)
  | .ok v1, .ok v2 =>
    if h : v1 = v2 then .isTrue (by rw [h])
    else .isFalse (by intro he; cases he; exact h rfl)
  | .error _, .ok _ => .isFalse (by intro he; cases he)
  | .ok _, .error _ => .isFalse (by intro he; cases he)

/-! ## Theorems -/

theorem getOr_eq (t : List TrackSizing) (i : ℕ) (d : TrackSizing) :
    getOr t i d = (t[i]?).getD (t.getLast?.getD d) := by
  unfold getOr
  cases h : t[i]? <;> cases h2 : t.getLast? <;> simp [Option.or]

/-- C4 (amended): track unification pushes, for each index, the given
content track and gutter track, where a missing entry defaults to the last
given entry of its list and only for an empty list to Auto (content)
respectively Linear(0) (gutter); the trailing gutter track is popped.  This
holds on both axes with the source's content counts. -/
theorem track_unification_repeats_last (grid : GridNode) (regions : Regions) :
    (GridLayouter.new grid regions).cols =
      unifySpec grid.tracks.inline grid.gutter.inline (max grid.tracks.inline.length 1) ∧
    (GridLayouter.new grid regions).rows =
      unifySpec grid.tracks.block grid.gutter.block (rCount grid) := by
  constructor <;>
    simp [GridLayouter.new, unifySpec, rCount, getOr_eq, Nat.max_comm]

/-- C9: a linear row at an odd track index (a gutter row) that does not fit
into the current region while more regions exist is dropped after finishing
the current region: `layout_linear_row` reduces to a single `finish_region`
call on the state with the block maximum constraint recorded — the gutter
frame is handed to no region and the loop stops, so it is neither pushed nor
replicated (in particular the resulting pending row list is empty). -/
theorem gutter_row_dropped (l : GridLayouter) (v : Linear) (y : ℕ)
    (hodd : y % 2 = 1)
    (hfit : (l.regions.current.get l.block).fits (l.linearRowLength v y) = false)
    (hlast : l.regions.inFullLast = false) :
    l.layoutLinearRow v y = (l.withMaxBlock (l.linearRowLength v y)).finishRegion ∧
    (l.layoutLinearRow v y).lrows = [] := by
  have hstep : l.layoutLinearRow v y =
      (l.withMaxBlock (l.linearRowLength v y)).finishRegion := by
    unfold GridLayouter.layoutLinearRow
    have h2 : l.regions.backlog.length + 2 = (l.regions.backlog.length + 1) + 1 := rfl
    rw [h2]
    unfold GridLayouter.linearSkipLoop
    simp only [GridLayouter.linearRowLength] at hfit
    simp [hfit, hlast, hodd, GridLayouter.withMaxBlock, GridLayouter.linearRowLength]
  refine ⟨hstep, ?_⟩
  rw [hstep]
  rfl

/-- C9 witness: the hypotheses are satisfiable — at the concrete fixture the
gutter row of resolved height 20pt does not fit the 10pt region while a
backlog region exists, and the call collapses to the single finish. -/
theorem gutter_row_dropped_witness :
    lW.layoutLinearRow vW 1 = (lW.withMaxBlock (lW.linearRowLength vW 1)).finishRegion ∧
    (lW.layoutLinearRow vW 1).lrows = [] :=
  gutter_row_dropped lW vW 1 (by decide) (by decide) (by decide)

/-! ### Length algebra -/

theorem Length.add_fin_fin (a b : ℚ) : Length.add (.fin a) (.fin b) = .fin (a + b) := rfl

theorem Length.add_zero' (x : Length) : Length.add x Length.zero = x := by
  cases x <;> simp [Length.add, Length.zero]

theorem Length.zero_add' (x : Length) : Length.add Length.zero x = x := by
  cases x <;> simp [Length.add, Length.zero]

theorem Length.add_assoc' (x y z : Length) :
    Length.add (Length.add x y) z = Length.add x (Length.add y z) := by
  cases x <;> cases y <;> cases z <;> simp [Length.add] <;> ring

theorem Length.foldl_add (xs : List Length) :
    ∀ a : Length, xs.foldl Length.add a = Length.add a (xs.foldl Length.add Length.zero) := by
  induction xs with
  | nil => intro a; simp [Length.add_zero']
  | cons y ys ih =>
    intro a
    simp only [List.foldl_cons]
    rw [ih (Length.add a y), ih (Length.add Length.zero y), Length.zero_add',
      Length.add_assoc']

theorem Length.sum_cons (x : Length) (xs : List Length) :
    Length.sum (x :: xs) = Length.add x (Length.sum xs) := by
  simp only [Length.sum, List.foldl_cons]
  rw [Length.foldl_add, Length.zero_add']

theorem Length.sum_nil : Length.sum [] = Length.zero := rfl

theorem Length.isFinite_iff (x : Length) : x.isFinite = true ↔ ∃ q, x = .fin q := by
  cases x <;> simp [Length.isFinite]

theorem Fractional.isZero_fin (q : ℚ) :
    Fractional.isZero (.fin q) = false ↔ q ≠ 0 := by
  simp [Fractional.isZero]

theorem Length.add_left_comm' (x y z : Length) :
    Length.add x (Length.add y z) = Length.add y (Length.add x z) := by
  cases x <;> cases y <;> cases z <;> simp [Length.add] <;> ring

/-! ### Sums over the track/slot zip -/

theorem sumWhere_nil (p : TrackSizing → Bool) (rcols : List Length) :
    sumWhere p [] rcols = Length.zero := rfl

theorem sumWhere_cons (p : TrackSizing → Bool) (col : TrackSizing)
    (cols : List TrackSizing) (rcol : Length) (rcols : List Length) :
    sumWhere p (col :: cols) (rcol :: rcols) =
      if p col then Length.add rcol (sumWhere p cols rcols) else sumWhere p cols rcols := rfl

theorem sumWhere_replicate_zero (p : TrackSizing → Bool) :
    ∀ cols : List TrackSizing,
      sumWhere p cols (List.replicate cols.length Length.zero) = Length.zero := by
  intro cols
  induction cols with
  | nil => rfl
  | cons col cols ih =>
    simp only [List.length_cons, List.replicate_succ, sumWhere_cons]
    rw [ih]
    split <;> simp [Length.add_zero']

theorem countAuto_eq_zero_sumWhere (cols : List TrackSizing) (rcols : List Length)
    (h : countAuto cols = 0) : sumWhere TrackSizing.isAuto cols rcols = Length.zero := by
  induction cols generalizing rcols with
  | nil => rfl
  | cons col cols ih =>
    cases rcols with
    | nil => rfl
    | cons rcol rcols =>
      cases col with
      | Auto => simp [countAuto] at h
      | Linear v =>
        rw [sumWhere_cons]
        simp only [TrackSizing.isAuto, if_false, Bool.false_eq_true]
        exact ih rcols (by simpa [countAuto] using h)
      | Fractional v =>
        rw [sumWhere_cons]
        simp only [TrackSizing.isAuto, if_false, Bool.false_eq_true]
        exact ih rcols (by simpa [countAuto] using h)

theorem sum_split : ∀ (cols : List TrackSizing) (rcols : List Length),
    rcols.length = cols.length →
    Length.sum rcols =
      Length.add (sumWhere TrackSizing.isAuto cols rcols)
        (Length.add (sumWhere TrackSizing.isFrac cols rcols)
          (sumWhere TrackSizing.isLin cols rcols)) := by
  intro cols
  induction cols with
  | nil =>
    intro rcols h
    cases rcols with
    | nil => simp [Length.sum_nil, sumWhere_nil, Length.add_zero']
    | cons a b => simp at h
  | cons col cols ih =>
    intro rcols h
    cases rcols with
    | nil => simp at h
    | cons rcol rcols =>
      have h' : rcols.length = cols.length := by simpa using h
      rw [Length.sum_cons, ih rcols h']
      cases col with
      | Auto =>
        simp only [sumWhere_cons, TrackSizing.isAuto, TrackSizing.isFrac,
          TrackSizing.isLin, if_true, if_false, Bool.false_eq_true, ite_false, ite_true]
        rw [Length.add_assoc']
      | Linear v =>
        simp only [sumWhere_cons, TrackSizing.isAuto, TrackSizing.isFrac,
          TrackSizing.isLin, if_true, if_false, Bool.false_eq_true, ite_false, ite_true]
        rw [Length.add_left_comm' rcol, Length.add_left_comm' rcol]
      | Fractional v =>
        simp only [sumWhere_cons, TrackSizing.isAuto, TrackSizing.isFrac,
          TrackSizing.isLin, if_true, if_false, Bool.false_eq_true, ite_false, ite_true]
        rw [Length.add_left_comm' rcol, Length.add_assoc']

/-! ### The linear/fractional resolution pass -/

theorem resolvePass_length (base : Length) :
    ∀ (cols : List TrackSizing) (rcols : List Length) (c0 : Case),
      rcols.length = cols.length →
      (resolvePass base c0 cols rcols).1.length = cols.length := by
  intro cols
  induction cols with
  | nil => intro rcols c0 h; cases rcols with
    | nil => rfl
    | cons a b => simp at h
  | cons col cols ih =>
    intro rcols c0 h
    cases rcols with
    | nil => simp at h
    | cons rcol rcols =>
      have h' : rcols.length = cols.length := by simpa using h
      cases col <;> simp [resolvePass, ih rcols _ h']

theorem resolvePass_sumLin (base : Length) :
    ∀ (cols : List TrackSizing) (rcols : List Length) (c0 : Case),
      rcols.length = cols.length →
      sumWhere TrackSizing.isLin cols (resolvePass base c0 cols rcols).1 =
        (resolvePass base c0 cols rcols).2.1 := by
  intro cols
  induction cols with
  | nil => intro rcols c0 h; cases rcols with
    | nil => rfl
    | cons a b => simp at h
  | cons col cols ih =>
    intro rcols c0 h
    cases rcols with
    | nil => simp at h
    | cons rcol rcols =>
      have h' : rcols.length = cols.length := by simpa using h
      cases col with
      | Auto => simpa [resolvePass, sumWhere_cons, TrackSizing.isLin] using ih rcols _ h'
      | Linear v =>
        simp only [resolvePass, sumWhere_cons, TrackSizing.isLin, if_true]
        rw [ih rcols _ h']
      | Fractional v =>
        simpa [resolvePass, sumWhere_cons, TrackSizing.isLin] using ih rcols _ h'

theorem resolvePass_sumAuto (base : Length) :
    ∀ (cols : List TrackSizing) (rcols : List Length) (c0 : Case),
      rcols.length = cols.length →
      sumWhere TrackSizing.isAuto cols (resolvePass base c0 cols rcols).1 =
        sumWhere TrackSizing.isAuto cols rcols := by
  intro cols
  induction cols with
  | nil => intro rcols c0 h; cases rcols with
    | nil => rfl
    | cons a b => simp at h
  | cons col cols ih =>
    intro rcols c0 h
    cases rcols with
    | nil => simp at h
    | cons rcol rcols =>
      have h' : rcols.length = cols.length := by simpa using h
      cases col <;>
        simp [resolvePass, sumWhere_cons, TrackSizing.isAuto, ih rcols _ h']

theorem resolvePass_sumFrac (base : Length) :
    ∀ (cols : List TrackSizing) (rcols : List Length) (c0 : Case),
      rcols.length = cols.length →
      sumWhere TrackSizing.isFrac cols (resolvePass base c0 cols rcols).1 =
        sumWhere TrackSizing.isFrac cols rcols := by
  intro cols
  induction cols with
  | nil => intro rcols c0 h; cases rcols with
    | nil => rfl
    | cons a b => simp at h
  | cons col cols ih =>
    intro rcols c0 h
    cases rcols with
    | nil => simp at h
    | cons rcol rcols =>
      have h' : rcols.length = cols.length := by simpa using h
      cases col <;>
        simp [resolvePass, sumWhere_cons, TrackSizing.isFrac, ih rcols _ h']

theorem resolvePass_fr (base : Length) :
    ∀ (cols : List TrackSizing) (rcols : List Length) (c0 : Case),
      rcols.length = cols.length →
      (resolvePass base c0 cols rcols).2.2.1 = fracSumF cols := by
  intro cols
  induction cols with
  | nil => intro rcols c0 h; cases rcols with
    | nil => rfl
    | cons a b => simp at h
  | cons col cols ih =>
    intro rcols c0 h
    cases rcols with
    | nil => simp at h
    | cons rcol rcols =>
      have h' : rcols.length = cols.length := by simpa using h
      cases col <;> simp [resolvePass, fracSumF, ih rcols _ h']

theorem resolvePass_case (base : Length) :
    ∀ (cols : List TrackSizing) (rcols : List Length) (c0 : Case),
      (resolvePass base c0 cols rcols).2.2.2 = c0 ∨
        (resolvePass base c0 cols rcols).2.2.2 = Case.fitting := by
  intro cols
  induction cols with
  | nil => intro rcols c0; cases rcols <;> simp [resolvePass]
  | cons col cols ih =>
    intro rcols c0
    cases rcols with
    | nil => simp [resolvePass]
    | cons rcol rcols =>
      cases col with
      | Auto =>
        rcases ih rcols Case.fitting with h | h <;> simp [resolvePass, h]
      | Linear v =>
        rcases ih rcols c0 with h | h <;> simp [resolvePass, h]
      | Fractional v =>
        rcases ih rcols Case.fitting with h | h <;> simp [resolvePass, h]

theorem resolvePass_linear_fin (base : Length) (hbase : base.isFinite = true) :
    ∀ (cols : List TrackSizing) (rcols : List Length) (c0 : Case),
      (resolvePass base c0 cols rcols).2.1.isFinite = true := by
  obtain ⟨b, rfl⟩ := (Length.isFinite_iff base).1 hbase
  intro cols
  induction cols with
  | nil => intro rcols c0; cases rcols <;> simp [resolvePass, Length.zero, Length.isFinite]
  | cons col cols ih =>
    intro rcols c0
    cases rcols with
    | nil => simp [resolvePass, Length.zero, Length.isFinite]
    | cons rcol rcols =>
      cases col with
      | Auto => simpa [resolvePass] using ih rcols _
      | Linear v =>
        obtain ⟨q, hq⟩ := (Length.isFinite_iff _).1 (ih rcols c0)
        simp [resolvePass, hq, Linear.resolve, Fractional.mulLength, Length.add,
          Length.isFinite]
      | Fractional v => simpa [resolvePass] using ih rcols _

/-! ### Auto column measurement -/

theorem foldl_preserve {α β : Type _} (P : α → Prop) (f : α → β → α)
    (hf : ∀ a b, P a → P (f a b)) :
    ∀ (l : List β) (a : α), P a → P (l.foldl f a) := by
  intro l
  induction l with
  | nil => intro a h; exact h
  | cons x xs ih => intro a h; exact ih (f a x) (hf a x h)

theorem cell_mem (l : GridLayouter) (x y : ℕ) (node : LayoutNode)
    (h : l.cell x y = some node) : node ∈ l.children := by
  unfold GridLayouter.cell at h
  split at h
  · exact List.getElem?_mem h
  · exact absurd h (by simp)

theorem measureCellStep_fin (l : GridLayouter) (available : Length) (x : ℕ)
    (hch : ∀ node ∈ l.children, ∀ rg,
      (((node.layout rg).1).item.size.get l.inline).isFinite = true)
    (a : Length) (y : ℕ) (ha : a.isFinite = true) :
    (l.measureCellStep available x a y).isFinite = true := by
  unfold GridLayouter.measureCellStep
  cases hc : l.cell x y with
  | none => simpa using ha
  | some node =>
    obtain ⟨q, hq⟩ := (Length.isFinite_iff _).1 ha
    obtain ⟨q2, hq2⟩ := (Length.isFinite_iff _).1 (hch node (cell_mem l x y node hc) _)
    simp only [hq]
    rw [hq2]
    rfl

theorem measureOneAuto_fin (l : GridLayouter) (available : Length) (x : ℕ)
    (hch : ∀ node ∈ l.children, ∀ rg,
      (((node.layout rg).1).item.size.get l.inline).isFinite = true) :
    (l.measureOneAuto available x).isFinite = true :=
  foldl_preserve (fun a : Length => a.isFinite = true) _
    (fun a y ha => measureCellStep_fin l available x hch a y ha) _ _ rfl

theorem measureAutoList_length (l : GridLayouter) (available : Length) :
    ∀ (cols : List TrackSizing) (rcols : List Length) (x : ℕ),
      rcols.length = cols.length →
      (measureAutoList l available x cols rcols).1.length = cols.length := by
  intro cols
  induction cols with
  | nil => intro rcols x h; cases rcols with
    | nil => rfl
    | cons a b => simp at h
  | cons col cols ih =>
    intro rcols x h
    cases rcols with
    | nil => simp at h
    | cons rcol rcols =>
      have h' : rcols.length = cols.length := by simpa using h
      cases col <;> simp [measureAutoList, ih rcols _ h']

theorem measureAutoList_sumAuto (l : GridLayouter) (available : Length) :
    ∀ (cols : List TrackSizing) (rcols : List Length) (x : ℕ),
      rcols.length = cols.length →
      sumWhere TrackSizing.isAuto cols (measureAutoList l available x cols rcols).1 =
        (measureAutoList l available x cols rcols).2.1 := by
  intro cols
  induction cols with
  | nil => intro rcols x h; cases rcols with
    | nil => rfl
    | cons a b => simp at h
  | cons col cols ih =>
    intro rcols x h
    cases rcols with
    | nil => simp at h
    | cons rcol rcols =>
      have h' : rcols.length = cols.length := by simpa using h
      cases col with
      | Auto =>
        simp only [measureAutoList, sumWhere_cons, TrackSizing.isAuto, if_true]
        rw [ih rcols _ h']
      | Linear v =>
        simpa [measureAutoList, sumWhere_cons, TrackSizing.isAuto] using ih rcols _ h'
      | Fractional v =>
        simpa [measureAutoList, sumWhere_cons, TrackSizing.isAuto] using ih rcols _ h'

theorem measureAutoList_sumLin (l : GridLayouter) (available : Length) :
    ∀ (cols : List TrackSizing) (rcols : List Length) (x : ℕ),
      rcols.length = cols.length →
      sumWhere TrackSizing.isLin cols (measureAutoList l available x cols rcols).1 =
        sumWhere TrackSizing.isLin cols rcols := by
  intro cols
  induction cols with
  | nil => intro rcols x h; cases rcols with
    | nil => rfl
    | cons a b => simp at h
  | cons col cols ih =>
    intro rcols x h
    cases rcols with
    | nil => simp at h
    | cons rcol rcols =>
      have h' : rcols.length = cols.length := by simpa using h
      cases col <;>
        simp [measureAutoList, sumWhere_cons, TrackSizing.isLin, ih rcols _ h']

theorem measureAutoList_sumFrac (l : GridLayouter) (available : Length) :
    ∀ (cols : List TrackSizing) (rcols : List Length) (x : ℕ),
      rcols.length = cols.length →
      sumWhere TrackSizing.isFrac cols (measureAutoList l available x cols rcols).1 =
        sumWhere TrackSizing.isFrac cols rcols := by
  intro cols
  induction cols with
  | nil => intro rcols x h; cases rcols with
    | nil => rfl
    | cons a b => simp at h
  | cons col cols ih =>
    intro rcols x h
    cases rcols with
    | nil => simp at h
    | cons rcol rcols =>
      have h' : rcols.length = cols.length := by simpa using h
      cases col <;>
        simp [measureAutoList, sumWhere_cons, TrackSizing.isFrac, ih rcols _ h']

theorem measureAutoList_count (l : GridLayouter) (available : Length) :
    ∀ (cols : List TrackSizing) (rcols : List Length) (x : ℕ),
      rcols.length = cols.length →
      (measureAutoList l available x cols rcols).2.2 = countAuto cols := by
  intro cols
  induction cols with
  | nil => intro rcols x h; cases rcols with
    | nil => rfl
    | cons a b => simp at h
  | cons col cols ih =>
    intro rcols x h
    cases rcols with
    | nil => simp at h
    | cons rcol rcols =>
      have h' : rcols.length = cols.length := by simpa using h
      cases col <;> simp [measureAutoList, countAuto, ih rcols _ h']

theorem measureAutoList_finAuto (l : GridLayouter) (available : Length)
    (hch : ∀ node ∈ l.children, ∀ rg,
      (((node.layout rg).1).item.size.get l.inline).isFinite = true) :
    ∀ (cols : List TrackSizing) (rcols : List Length) (x : ℕ),
      rcols.length = cols.length →
      finWhere TrackSizing.isAuto cols (measureAutoList l available x cols rcols).1 = true ∧
      (measureAutoList l available x cols rcols).2.1.isFinite = true := by
  intro cols
  induction cols with
  | nil =>
    intro rcols x h
    cases rcols with
    | nil => exact ⟨rfl, rfl⟩
    | cons a b => simp at h
  | cons col cols ih =>
    intro rcols x h
    cases rcols with
    | nil => simp at h
    | cons rcol rcols =>
      have h' : rcols.length = cols.length := by simpa using h
      obtain ⟨ihf, ihs⟩ := ih rcols (x + 1) h'
      cases col with
      | Auto =>
        have hm := measureOneAuto_fin l available x hch
        obtain ⟨q, hq⟩ := (Length.isFinite_iff _).1 hm
        obtain ⟨q2, hq2⟩ := (Length.isFinite_iff _).1 ihs
        constructor
        · simp [measureAutoList, finWhere, TrackSizing.isAuto, hm, ihf]
        · simp [measureAutoList, hq, hq2, Length.add, Length.isFinite]
      | Linear v =>
        refine ⟨?_, by simpa [measureAutoList] using ihs⟩
        simp [measureAutoList, finWhere, TrackSizing.isAuto, ihf]
      | Fractional v =>
        refine ⟨?_, by simpa [measureAutoList] using ihs⟩
        simp [measureAutoList, finWhere, TrackSizing.isAuto, ihf]

/-! ### Fractional growth -/

theorem growList_length (remaining : Length) (fr : Fractional) :
    ∀ (cols : List TrackSizing) (rcols : List Length),
      rcols.length = cols.length →
      (growList remaining fr cols rcols).length = cols.length := by
  intro cols
  induction cols with
  | nil => intro rcols h; cases rcols with
    | nil => rfl
    | cons a b => simp at h
  | cons col cols ih =>
    intro rcols h
    cases rcols with
    | nil => simp at h
    | cons rcol rcols =>
      have h' : rcols.length = cols.length := by simpa using h
      cases col <;> simp [growList, ih rcols h']

theorem growList_sumAuto (remaining : Length) (fr : Fractional) :
    ∀ (cols : List TrackSizing) (rcols : List Length),
      sumWhere TrackSizing.isAuto cols (growList remaining fr cols rcols) =
        sumWhere TrackSizing.isAuto cols rcols := by
  intro cols
  induction cols with
  | nil => intro rcols; cases rcols <;> rfl
  | cons col cols ih =>
    intro rcols
    cases rcols with
    | nil => cases col <;> rfl
    | cons rcol rcols =>
      cases col <;> simp [growList, sumWhere_cons, TrackSizing.isAuto, ih rcols]

theorem growList_sumLin (remaining : Length) (fr : Fractional) :
    ∀ (cols : List TrackSizing) (rcols : List Length),
      sumWhere TrackSizing.isLin cols (growList remaining fr cols rcols) =
        sumWhere TrackSizing.isLin cols rcols := by
  intro cols
  induction cols with
  | nil => intro rcols; cases rcols <;> rfl
  | cons col cols ih =>
    intro rcols
    cases rcols with
    | nil => cases col <;> rfl
    | cons rcol rcols =>
      cases col <;> simp [growList, sumWhere_cons, TrackSizing.isLin, ih rcols]

theorem growList_sumFrac (remQ F : ℚ) :
    ∀ (cols : List TrackSizing) (rcols : List Length),
      rcols.length = cols.length →
      finFracs cols = true →
      sumWhere TrackSizing.isFrac cols
          (growList (Length.fin remQ) (Fractional.fin F) cols rcols) =
        Length.fin (fracQSum cols / F * remQ) := by
  intro cols
  induction cols with
  | nil =>
    intro rcols _ _
    cases rcols <;> simp [growList, sumWhere_nil, fracQSum, Length.zero]
  | cons col cols ih =>
    intro rcols hlen hf
    cases rcols with
    | nil => simp at hlen
    | cons rcol rcols =>
      have hlen' : rcols.length = cols.length := by simpa using hlen
      cases col with
      | Auto =>
        simpa [growList, sumWhere_cons, TrackSizing.isFrac, fracQSum] using
          ih rcols hlen' (by simpa [finFracs] using hf)
      | Linear v =>
        simpa [growList, sumWhere_cons, TrackSizing.isFrac, fracQSum] using
          ih rcols hlen' (by simpa [finFracs] using hf)
      | Fractional v =>
        cases v with
        | inf => simp [finFracs, Fractional.isFinite] at hf
        | fin q =>
          have hf' : finFracs cols = true := by
            simpa [finFracs, Fractional.isFinite] using hf
          have hrec := ih rcols hlen' hf'
          simp only [growList, sumWhere_cons, TrackSizing.isFrac, if_true,
            Fractional.div, Fractional.isFinite, Fractional.mulLength, ite_true]
          rw [hrec]
          rw [Length.add_fin_fin]
          congr 1
          simp only [fracQSum]
          ring

/-! ### Auto column shrinking -/

theorem shrinkList_length (fair share : Length) :
    ∀ (cols : List TrackSizing) (rcols : List Length),
      rcols.length = cols.length →
      (shrinkList fair share cols rcols).length = cols.length := by
  intro cols
  induction cols with
  | nil => intro rcols h; cases rcols with
    | nil => rfl
    | cons a b => simp at h
  | cons col cols ih =>
    intro rcols h
    cases rcols with
    | nil => simp at h
    | cons rcol rcols =>
      have h' : rcols.length = cols.length := by simpa using h
      simp [shrinkList, ih rcols h']

theorem shrinkList_sumLin (fair share : Length) :
    ∀ (cols : List TrackSizing) (rcols : List Length),
      sumWhere TrackSizing.isLin cols (shrinkList fair share cols rcols) =
        sumWhere TrackSizing.isLin cols rcols := by
  intro cols
  induction cols with
  | nil => intro rcols; cases rcols <;> rfl
  | cons col cols ih =>
    intro rcols
    cases rcols with
    | nil => rfl
    | cons rcol rcols =>
      cases col <;>
        simp [shrinkList, sumWhere_cons, TrackSizing.isLin, TrackSizing.isAuto, ih rcols]

theorem shrinkList_sumFrac (fair share : Length) :
    ∀ (cols : List TrackSizing) (rcols : List Length),
      sumWhere TrackSizing.isFrac cols (shrinkList fair share cols rcols) =
        sumWhere TrackSizing.isFrac cols rcols := by
  intro cols
  induction cols with
  | nil => intro rcols; cases rcols <;> rfl
  | cons col cols ih =>
    intro rcols
    cases rcols with
    | nil => rfl
    | cons rcol rcols =>
      cases col <;>
        simp [shrinkList, sumWhere_cons, TrackSizing.isFrac, TrackSizing.isAuto, ih rcols]

theorem shrink_spec (fairQ shQ : ℚ) :
    ∀ (cols : List TrackSizing) (rcols : List Length),
      rcols.length = cols.length →
      finWhere TrackSizing.isAuto cols rcols = true →
      ∃ sQ : ℚ,
        (shrinkStats (.fin fairQ) cols rcols).2 = .fin sQ ∧
        sumWhere TrackSizing.isAuto cols
            (shrinkList (.fin fairQ) (.fin shQ) cols rcols) =
          .fin (sQ + ((shrinkStats (.fin fairQ) cols rcols).1 : ℚ) * shQ) ∧
        ((shrinkStats (.fin fairQ) cols rcols).1 = 0 →
          sumWhere TrackSizing.isAuto cols rcols = .fin sQ ∧
          sQ ≤ (countAuto cols : ℚ) * fairQ) := by
  intro cols
  induction cols with
  | nil =>
    intro rcols hlen _
    cases rcols with
    | nil =>
      refine ⟨0, rfl, by simp [shrinkStats, shrinkList, sumWhere_nil, Length.zero], ?_⟩
      intro _
      simp [sumWhere_nil, Length.zero, countAuto]
    | cons a b => simp at hlen
  | cons col cols ih =>
    intro rcols hlen hfin
    cases rcols with
    | nil => simp at hlen
    | cons rcol rcols =>
      have hlen' : rcols.length = cols.length := by simpa using hlen
      cases col with
      | Linear v =>
        have hfin' : finWhere TrackSizing.isAuto cols rcols = true := by
          simpa [finWhere, TrackSizing.isAuto] using hfin
        obtain ⟨sQ, h1, h2, h3⟩ := ih rcols hlen' hfin'
        refine ⟨sQ, ?_, ?_, ?_⟩
        · simpa [shrinkStats, TrackSizing.isAuto] using h1
        · simpa [shrinkStats, shrinkList, sumWhere_cons, TrackSizing.isAuto] using h2
        · intro h0
          have h0' : (shrinkStats (.fin fairQ) cols rcols).1 = 0 := by
            simpa [shrinkStats] using h0
          obtain ⟨ha, hb⟩ := h3 h0'
          exact ⟨by simpa [sumWhere_cons, TrackSizing.isAuto] using ha,
            by simpa [countAuto] using hb⟩
      | Fractional v =>
        have hfin' : finWhere TrackSizing.isAuto cols rcols = true := by
          simpa [finWhere, TrackSizing.isAuto] using hfin
        obtain ⟨sQ, h1, h2, h3⟩ := ih rcols hlen' hfin'
        refine ⟨sQ, ?_, ?_, ?_⟩
        · simpa [shrinkStats, TrackSizing.isAuto] using h1
        · simpa [shrinkStats, shrinkList, sumWhere_cons, TrackSizing.isAuto] using h2
        · intro h0
          have h0' : (shrinkStats (.fin fairQ) cols rcols).1 = 0 := by
            simpa [shrinkStats] using h0
          obtain ⟨ha, hb⟩ := h3 h0'
          exact ⟨by simpa [sumWhere_cons, TrackSizing.isAuto] using ha,
            by simpa [countAuto] using hb⟩
      | Auto =>
        have hfin' : finWhere TrackSizing.isAuto cols rcols = true := by
          simp only [finWhere, TrackSizing.isAuto, if_true, Bool.and_eq_true] at hfin
          exact hfin.2
        have hrfin : rcol.isFinite = true := by
          simp only [finWhere, TrackSizing.isAuto, if_true, Bool.and_eq_true] at hfin
          exact hfin.1
        obtain ⟨eQ, rfl⟩ := (Length.isFinite_iff rcol).1 hrfin
        obtain ⟨sQ, h1, h2, h3⟩ := ih rcols hlen' hfin'
        by_cases hov : Length.blt (.fin fairQ) (.fin eQ) = true
        · -- overlarge entry: counted, overwritten with the share
          have hss : shrinkStats (.fin fairQ) (TrackSizing.Auto :: cols)
              (Length.fin eQ :: rcols) =
              ((shrinkStats (.fin fairQ) cols rcols).1 + 1,
               (shrinkStats (.fin fairQ) cols rcols).2) := by
            simp [shrinkStats, hov]
          have hsl : shrinkList (.fin fairQ) (.fin shQ) (TrackSizing.Auto :: cols)
              (Length.fin eQ :: rcols) =
              Length.fin shQ :: shrinkList (.fin fairQ) (.fin shQ) cols rcols := by
            simp [shrinkList, hov]
          refine ⟨sQ, ?_, ?_, ?_⟩
          · rw [hss]
            exact h1
          · rw [hss, hsl, sumWhere_cons]
            simp only [TrackSizing.isAuto, if_true, ite_true]
            rw [h2, Length.add_fin_fin]
            congr 1
            push_cast
            ring
          · intro h0
            rw [hss] at h0
            simp at h0
        · -- fair entry: kept, its width consumed
          have hov' : Length.blt (.fin fairQ) (.fin eQ) = false := by
            simpa using hov
          have hle : eQ ≤ fairQ := by
            have := hov'
            simp only [Length.blt, decide_eq_false_iff_not, not_lt] at this
            exact this
          have hss : shrinkStats (.fin fairQ) (TrackSizing.Auto :: cols)
              (Length.fin eQ :: rcols) =
              ((shrinkStats (.fin fairQ) cols rcols).1,
               Length.add (Length.fin eQ) (shrinkStats (.fin fairQ) cols rcols).2) := by
            simp [shrinkStats, hov']
          have hsl : shrinkList (.fin fairQ) (.fin shQ) (TrackSizing.Auto :: cols)
              (Length.fin eQ :: rcols) =
              Length.fin eQ :: shrinkList (.fin fairQ) (.fin shQ) cols rcols := by
            simp [shrinkList, hov']
          refine ⟨eQ + sQ, ?_, ?_, ?_⟩
          · rw [hss]
            simp only
            rw [h1, Length.add_fin_fin]
          · rw [hss, hsl, sumWhere_cons]
            simp only [TrackSizing.isAuto, if_true, ite_true]
            rw [h2, Length.add_fin_fin]
            congr 1
            ring
          · intro h0
            rw [hss] at h0
            obtain ⟨ha, hb⟩ := h3 h0
            constructor
            · rw [sumWhere_cons]
              simp only [TrackSizing.isAuto, if_true, ite_true]
              rw [ha, Length.add_fin_fin]
            · simp only [countAuto]
              push_cast
              nlinarith [hle, hb]

theorem fracSumF_fin : ∀ cols : List TrackSizing, finFracs cols = true →
    fracSumF cols = .fin (fracQSum cols) := by
  intro cols
  induction cols with
  | nil => intro _; rfl
  | cons col cols ih =>
    intro hf
    cases col with
    | Auto => simpa [fracSumF, fracQSum] using ih (by simpa [finFracs] using hf)
    | Linear v => simpa [fracSumF, fracQSum] using ih (by simpa [finFracs] using hf)
    | Fractional v =>
      cases v with
      | inf => simp [finFracs, Fractional.isFinite] at hf
      | fin q =>
        have := ih (by simpa [finFracs, Fractional.isFinite] using hf)
        simp [fracSumF, fracQSum, this, Fractional.add]

theorem measureColumns_case (l : GridLayouter) :
    (l.measureColumns).2 =
      (if Length.ble Length.zero l.mcAvailable then
        if Length.ble Length.zero l.mcRemaining then
          (if !l.mcResolve.2.2.1.isZero then Case.exact else l.mcResolve.2.2.2)
        else Case.exact
      else if l.mcResolve.2.2.2 = Case.fitting then Case.overflowing
        else l.mcResolve.2.2.2) := by
  by_cases hav : Length.ble Length.zero l.mcAvailable = true
  · by_cases hrem : Length.ble Length.zero l.mcRemaining = true
    · by_cases hfrz : l.mcResolve.2.2.1.isZero = true
      · unfold GridLayouter.measureColumns
        simp only [GridLayouter.mcAvailable, GridLayouter.mcCurrent,
          GridLayouter.mcResolve, GridLayouter.mcRemaining,
          GridLayouter.mcAuto] at hav hrem hfrz ⊢
        simp [hav, hrem, hfrz]
      · have hfrz' : l.mcResolve.2.2.1.isZero = false := by simpa using hfrz
        unfold GridLayouter.measureColumns
        simp only [GridLayouter.mcAvailable, GridLayouter.mcCurrent,
          GridLayouter.mcResolve, GridLayouter.mcRemaining,
          GridLayouter.mcAuto] at hav hrem hfrz' ⊢
        simp [hav, hrem, hfrz']
    · have hrem' : Length.ble Length.zero l.mcRemaining = false := by simpa using hrem
      unfold GridLayouter.measureColumns
      simp only [GridLayouter.mcAvailable, GridLayouter.mcCurrent,
        GridLayouter.mcResolve, GridLayouter.mcRemaining,
        GridLayouter.mcAuto] at hav hrem' ⊢
      simp [hav, hrem']
  · have hav' : Length.ble Length.zero l.mcAvailable = false := by simpa using hav
    unfold GridLayouter.measureColumns
    simp only [GridLayouter.mcAvailable, GridLayouter.mcCurrent,
      GridLayouter.mcResolve, GridLayouter.mcRemaining,
      GridLayouter.mcAuto] at hav' ⊢
    simp [hav']

theorem measureColumns_rcols (l : GridLayouter) :
    (l.measureColumns).1.rcols =
      (if Length.ble Length.zero l.mcAvailable then
        if Length.ble Length.zero l.mcRemaining then
          (if !l.mcResolve.2.2.1.isZero then
            (l.mcAuto.1.growFractionalColumns l.mcRemaining l.mcResolve.2.2.1).rcols
          else l.mcAuto.1.rcols)
        else (l.mcAuto.1.shrinkAutoColumns l.mcAvailable l.mcAuto.2.2).rcols
      else l.mcResolve.1) := by
  by_cases hav : Length.ble Length.zero l.mcAvailable = true
  · by_cases hrem : Length.ble Length.zero l.mcRemaining = true
    · by_cases hfrz : l.mcResolve.2.2.1.isZero = true
      · unfold GridLayouter.measureColumns
        simp only [GridLayouter.mcAvailable, GridLayouter.mcCurrent,
          GridLayouter.mcResolve, GridLayouter.mcRemaining,
          GridLayouter.mcAuto] at hav hrem hfrz ⊢
        simp [hav, hrem, hfrz]
        rcases resolvePass_case (l.regions.base.get l.inline) l.cols l.rcols
          Case.purelyLinear with h | h <;> simp [h]
      · have hfrz' : l.mcResolve.2.2.1.isZero = false := by simpa using hfrz
        unfold GridLayouter.measureColumns
        simp only [GridLayouter.mcAvailable, GridLayouter.mcCurrent,
          GridLayouter.mcResolve, GridLayouter.mcRemaining,
          GridLayouter.mcAuto] at hav hrem hfrz' ⊢
        simp [hav, hrem, hfrz']
    · have hrem' : Length.ble Length.zero l.mcRemaining = false := by simpa using hrem
      unfold GridLayouter.measureColumns
      simp only [GridLayouter.mcAvailable, GridLayouter.mcCurrent,
        GridLayouter.mcResolve, GridLayouter.mcRemaining,
        GridLayouter.mcAuto] at hav hrem' ⊢
      simp [hav, hrem']
  · have hav' : Length.ble Length.zero l.mcAvailable = false := by simpa using hav
    unfold GridLayouter.measureColumns
    simp only [GridLayouter.mcAvailable, GridLayouter.mcCurrent,
      GridLayouter.mcResolve, GridLayouter.mcRemaining,
      GridLayouter.mcAuto] at hav' ⊢
    simp [hav']
    rcases resolvePass_case (l.regions.base.get l.inline) l.cols l.rcols
      Case.purelyLinear with h | h <;> simp [h]

theorem mcAuto_rcols (l : GridLayouter) :
    l.mcAuto.1.rcols =
      (measureAutoList { l with rcols := l.mcResolve.1 } l.mcAvailable 0 l.cols
        l.mcResolve.1).1 := rfl

theorem mcAuto_sum (l : GridLayouter) :
    l.mcAuto.2.1 =
      (measureAutoList { l with rcols := l.mcResolve.1 } l.mcAvailable 0 l.cols
        l.mcResolve.1).2.1 := rfl

theorem mcAuto_count (l : GridLayouter) :
    l.mcAuto.2.2 =
      (measureAutoList { l with rcols := l.mcResolve.1 } l.mcAvailable 0 l.cols
        l.mcResolve.1).2.2 := rfl

/-- The grow branch of `measure_columns`: the resolved columns sum to the
current inline size. -/
theorem mc_grow (l : GridLayouter)
    (hzero : l.rcols = List.replicate l.cols.length Length.zero)
    (hcur : (l.regions.current.get l.inline).isFinite = true)
    (hbase : (l.regions.base.get l.inline).isFinite = true)
    (hch : ∀ node ∈ l.children, ∀ rg,
      (((node.layout rg).1).item.size.get l.inline).isFinite = true)
    (hfr : finFracs l.cols = true)
    (hav : Length.ble Length.zero l.mcAvailable = true)
    (hrem : Length.ble Length.zero l.mcRemaining = true)
    (hfrz : l.mcResolve.2.2.1.isZero = false) :
    Length.sum (l.measureColumns).1.rcols = l.mcCurrent := by
  have hlen : l.rcols.length = l.cols.length := by rw [hzero]; simp
  obtain ⟨curQ, hcurQ⟩ := (Length.isFinite_iff _).1 hcur
  obtain ⟨linQ, hlinQ⟩ := (Length.isFinite_iff _).1
    (resolvePass_linear_fin (l.regions.base.get l.inline) hbase l.cols l.rcols
      Case.purelyLinear)
  have hlen1 : l.mcResolve.1.length = l.cols.length :=
    resolvePass_length _ l.cols l.rcols _ hlen
  have hch' : ∀ node ∈ ({ l with rcols := l.mcResolve.1 } : GridLayouter).children, ∀ rg,
      (((node.layout rg).1).item.size.get
        ({ l with rcols := l.mcResolve.1 } : GridLayouter).inline).isFinite = true := hch
  obtain ⟨hfinA, hfinS⟩ :=
    measureAutoList_finAuto _ l.mcAvailable hch' l.cols l.mcResolve.1 0 hlen1
  obtain ⟨autoQ, hautoQ⟩ := (Length.isFinite_iff _).1 hfinS
  have hlenm : (measureAutoList { l with rcols := l.mcResolve.1 } l.mcAvailable 0 l.cols
      l.mcResolve.1).1.length = l.cols.length :=
    measureAutoList_length _ l.mcAvailable l.cols l.mcResolve.1 0 hlen1
  -- the fractional total
  have hfrv : l.mcResolve.2.2.1 = .fin (fracQSum l.cols) := by
    rw [show l.mcResolve.2.2.1 =
        (resolvePass (l.regions.base.get l.inline) Case.purelyLinear l.cols l.rcols).2.2.1
      from rfl]
    rw [resolvePass_fr _ l.cols l.rcols _ hlen]
    exact fracSumF_fin l.cols hfr
  have hFne : fracQSum l.cols ≠ 0 := by
    rw [hfrv] at hfrz
    exact (Fractional.isZero_fin _).1 hfrz
  -- the available and remaining sizes as rationals
  have hav' : l.mcAvailable = .fin (curQ - linQ) := by
    unfold GridLayouter.mcAvailable GridLayouter.mcCurrent
    rw [hcurQ]
    rw [show (resolvePass (l.regions.base.get l.inline) Case.purelyLinear l.cols
      l.rcols).2.1 = l.mcResolve.2.1 from rfl] at hlinQ
    rw [hlinQ]
    rfl
  have hrem' : l.mcRemaining = .fin (curQ - linQ - autoQ) := by
    unfold GridLayouter.mcRemaining
    rw [hav', mcAuto_sum, hautoQ]
    rfl
  -- the final slots
  rw [measureColumns_rcols]
  simp only [hav, hrem, hfrz, Bool.not_false, if_true, ite_true]
  rw [show (l.mcAuto.1.growFractionalColumns l.mcRemaining l.mcResolve.2.2.1).rcols =
      growList l.mcRemaining l.mcResolve.2.2.1 l.cols l.mcAuto.1.rcols from rfl]
  have hleng : (growList l.mcRemaining l.mcResolve.2.2.1 l.cols l.mcAuto.1.rcols).length =
      l.cols.length := by
    rw [mcAuto_rcols]
    exact growList_length _ _ l.cols _ hlenm
  rw [sum_split l.cols _ hleng]
  rw [growList_sumAuto, growList_sumLin]
  rw [mcAuto_rcols]
  rw [measureAutoList_sumAuto _ l.mcAvailable l.cols _ 0 hlen1]
  rw [measureAutoList_sumLin _ l.mcAvailable l.cols _ 0 hlen1]
  rw [hrem', hfrv]
  rw [growList_sumFrac _ _ l.cols _ hlenm hfr]
  rw [hautoQ]
  rw [show sumWhere TrackSizing.isLin l.cols l.mcResolve.1 = Length.fin linQ from by
    rw [show l.mcResolve.1 =
      (resolvePass (l.regions.base.get l.inline) Case.purelyLinear l.cols l.rcols).1
      from rfl]
    rw [resolvePass_sumLin _ l.cols l.rcols _ hlen]
    exact hlinQ]
  rw [Length.add_fin_fin, Length.add_fin_fin]
  unfold GridLayouter.mcCurrent
  rw [hcurQ]
  congr 1
  field_simp
  ring

/-- The shrink branch of `measure_columns`: the resolved columns sum to the
current inline size and the auto columns alone sum to the available space. -/
theorem mc_shrink (l : GridLayouter)
    (hzero : l.rcols = List.replicate l.cols.length Length.zero)
    (hcur : (l.regions.current.get l.inline).isFinite = true)
    (hbase : (l.regions.base.get l.inline).isFinite = true)
    (hch : ∀ node ∈ l.children, ∀ rg,
      (((node.layout rg).1).item.size.get l.inline).isFinite = true)
    (hav : Length.ble Length.zero l.mcAvailable = true)
    (hrem : Length.ble Length.zero l.mcRemaining = false) :
    Length.sum (l.measureColumns).1.rcols = l.mcCurrent ∧
    sumWhere TrackSizing.isAuto l.cols (l.measureColumns).1.rcols = l.mcAvailable := by
  have hlen : l.rcols.length = l.cols.length := by rw [hzero]; simp
  obtain ⟨curQ, hcurQ⟩ := (Length.isFinite_iff _).1 hcur
  obtain ⟨linQ, hlinQ⟩ := (Length.isFinite_iff _).1
    (resolvePass_linear_fin (l.regions.base.get l.inline) hbase l.cols l.rcols
      Case.purelyLinear)
  have hlen1 : l.mcResolve.1.length = l.cols.length :=
    resolvePass_length _ l.cols l.rcols _ hlen
  have hch' : ∀ node ∈ ({ l with rcols := l.mcResolve.1 } : GridLayouter).children, ∀ rg,
      (((node.layout rg).1).item.size.get
        ({ l with rcols := l.mcResolve.1 } : GridLayouter).inline).isFinite = true := hch
  obtain ⟨hfinA, hfinS⟩ :=
    measureAutoList_finAuto _ l.mcAvailable hch' l.cols l.mcResolve.1 0 hlen1
  obtain ⟨autoQ, hautoQ⟩ := (Length.isFinite_iff _).1 hfinS
  have hlenm : (measureAutoList { l with rcols := l.mcResolve.1 } l.mcAvailable 0 l.cols
      l.mcResolve.1).1.length = l.cols.length :=
    measureAutoList_length _ l.mcAvailable l.cols l.mcResolve.1 0 hlen1
  have hav' : l.mcAvailable = .fin (curQ - linQ) := by
    unfold GridLayouter.mcAvailable GridLayouter.mcCurrent
    rw [hcurQ]
    rw [show (resolvePass (l.regions.base.get l.inline) Case.purelyLinear l.cols
      l.rcols).2.1 = l.mcResolve.2.1 from rfl] at hlinQ
    rw [hlinQ]
    rfl
  have hrem' : l.mcRemaining = .fin (curQ - linQ - autoQ) := by
    unfold GridLayouter.mcRemaining
    rw [hav', mcAuto_sum, hautoQ]
    rfl
  have havQ : 0 ≤ curQ - linQ := by
    rw [hav'] at hav
    simpa [Length.zero, Length.ble] using hav
  have hremQ : curQ - linQ < autoQ := by
    rw [hrem'] at hrem
    have h2 := hrem
    simp only [Length.zero, Length.ble, decide_eq_false_iff_not, not_le] at h2
    linarith
  -- the measured auto total
  have hsumA : sumWhere TrackSizing.isAuto l.cols l.mcAuto.1.rcols = .fin autoQ := by
    rw [mcAuto_rcols, measureAutoList_sumAuto _ l.mcAvailable l.cols _ 0 hlen1]
    exact hautoQ
  -- the auto count is positive
  have hcount : countAuto l.cols ≠ 0 := by
    intro h0
    have := countAuto_eq_zero_sumWhere l.cols l.mcAuto.1.rcols h0
    rw [hsumA] at this
    have hz : autoQ = 0 := by
      simpa [Length.zero] using this
    rw [hz] at hremQ
    linarith
  -- shrink statistics
  have hcnt : l.mcAuto.2.2 = countAuto l.cols := by
    rw [mcAuto_count]
    exact measureAutoList_count _ l.mcAvailable l.cols _ 0 hlen1
  obtain ⟨sQ, hs1, _, hs3⟩ := shrink_spec ((curQ - linQ) / (countAuto l.cols : ℚ)) 0
    l.cols l.mcAuto.1.rcols hlenm hfinA
  -- the overlarge count is positive
  have hone : (shrinkStats (.fin ((curQ - linQ) / (countAuto l.cols : ℚ))) l.cols
      l.mcAuto.1.rcols).1 ≠ 0 := by
    intro h0
    obtain ⟨ha, hb⟩ := hs3 h0
    rw [hsumA] at ha
    have : autoQ = sQ := by
      have := ha
      exact Length.fin.inj this
    rw [← this] at hb
    have hmul : (countAuto l.cols : ℚ) * ((curQ - linQ) / (countAuto l.cols : ℚ)) =
        curQ - linQ := by
      field_simp
    rw [hmul] at hb
    linarith
  obtain ⟨sQ2, ht1, ht2, _⟩ := shrink_spec ((curQ - linQ) / (countAuto l.cols : ℚ))
    ((curQ - linQ - sQ) / ((shrinkStats (.fin ((curQ - linQ) / (countAuto l.cols : ℚ)))
      l.cols l.mcAuto.1.rcols).1 : ℚ))
    l.cols l.mcAuto.1.rcols hlenm hfinA
  have hsQ2 : sQ2 = sQ := by
    rw [hs1] at ht1
    exact (Length.fin.inj ht1).symm
  rw [hsQ2] at ht2
  -- identify the source's fair and share values
  have hfair : l.mcAvailable.divNat l.mcAuto.2.2 =
      Length.fin ((curQ - linQ) / (countAuto l.cols : ℚ)) := by
    rw [hav', hcnt]
    rfl
  have hshare :
      (Length.sub l.mcAvailable
        (shrinkStats (l.mcAvailable.divNat l.mcAuto.2.2) l.cols l.mcAuto.1.rcols).2).divNat
        (shrinkStats (l.mcAvailable.divNat l.mcAuto.2.2) l.cols l.mcAuto.1.rcols).1 =
      Length.fin ((curQ - linQ - sQ) /
        ((shrinkStats (.fin ((curQ - linQ) / (countAuto l.cols : ℚ))) l.cols
          l.mcAuto.1.rcols).1 : ℚ)) := by
    rw [hfair, hs1, hav']
    rfl
  -- the resolved slots after shrinking
  have hrc : (l.measureColumns).1.rcols =
      shrinkList (l.mcAvailable.divNat l.mcAuto.2.2)
        ((Length.sub l.mcAvailable
          (shrinkStats (l.mcAvailable.divNat l.mcAuto.2.2) l.cols
            l.mcAuto.1.rcols).2).divNat
          (shrinkStats (l.mcAvailable.divNat l.mcAuto.2.2) l.cols l.mcAuto.1.rcols).1)
        l.cols l.mcAuto.1.rcols := by
    rw [measureColumns_rcols]
    simp only [hav, hrem, if_true, ite_false, Bool.false_eq_true]
    rfl
  have hsum2 : sumWhere TrackSizing.isAuto l.cols (l.measureColumns).1.rcols =
      Length.fin (curQ - linQ) := by
    rw [hrc, hshare, hfair, ht2]
    congr 1
    have hoQ : ((shrinkStats (.fin ((curQ - linQ) / (countAuto l.cols : ℚ))) l.cols
        l.mcAuto.1.rcols).1 : ℚ) ≠ 0 := by
      exact_mod_cast hone
    field_simp
  have hlen2 : (l.measureColumns).1.rcols.length = l.cols.length := by
    rw [hrc]
    exact shrinkList_length _ _ l.cols _ hlenm
  constructor
  · rw [sum_split l.cols _ hlen2]
    rw [hsum2]
    have hfrac : sumWhere TrackSizing.isFrac l.cols (l.measureColumns).1.rcols =
        Length.zero := by
      rw [hrc, shrinkList_sumFrac, mcAuto_rcols,
        measureAutoList_sumFrac _ l.mcAvailable l.cols _ 0 hlen1]
      rw [show l.mcResolve.1 =
        (resolvePass (l.regions.base.get l.inline) Case.purelyLinear l.cols l.rcols).1
        from rfl]
      rw [resolvePass_sumFrac _ l.cols l.rcols _ hlen, hzero]
      exact sumWhere_replicate_zero _ l.cols
    have hlin : sumWhere TrackSizing.isLin l.cols (l.measureColumns).1.rcols =
        Length.fin linQ := by
      rw [hrc, shrinkList_sumLin, mcAuto_rcols,
        measureAutoList_sumLin _ l.mcAvailable l.cols _ 0 hlen1]
      rw [show l.mcResolve.1 =
        (resolvePass (l.regions.base.get l.inline) Case.purelyLinear l.cols l.rcols).1
        from rfl]
      rw [resolvePass_sumLin _ l.cols l.rcols _ hlen]
      exact hlinQ
    rw [hfrac, hlin]
    unfold GridLayouter.mcCurrent
    rw [hcurQ]
    rw [show Length.zero = Length.fin 0 from rfl]
    rw [Length.add_fin_fin, Length.add_fin_fin]
    congr 1
    ring
  · rw [hsum2, hav']

/-- C2: whenever a column resolution classifies as Exact — remaining space
distributed to fractional columns, or auto columns shrunk — the resolved
column widths sum exactly to the inline size of the current region, and in
the shrink branch the auto columns alone sum exactly to the available space.
The hypotheses are the source's preconditions: the slots start zeroed, the
current and base inline sizes are finite, children report finite inline
sizes, and the fractional tracks are finite. -/
theorem exact_case_rcols_sum (l : GridLayouter)
    (hzero : l.rcols = List.replicate l.cols.length Length.zero)
    (hcur : (l.regions.current.get l.inline).isFinite = true)
    (hbase : (l.regions.base.get l.inline).isFinite = true)
    (hch : ∀ node ∈ l.children, ∀ rg,
      (((node.layout rg).1).item.size.get l.inline).isFinite = true)
    (hfr : finFracs l.cols = true) :
    ((l.measureColumns).2 = Case.exact →
      Length.sum (l.measureColumns).1.rcols = l.mcCurrent) ∧
    (Length.ble Length.zero l.mcAvailable = true →
      Length.ble Length.zero l.mcRemaining = false →
      sumWhere TrackSizing.isAuto l.cols (l.measureColumns).1.rcols = l.mcAvailable) := by
  constructor
  · intro hex
    by_cases hav : Length.ble Length.zero l.mcAvailable = true
    · by_cases hrem : Length.ble Length.zero l.mcRemaining = true
      · by_cases hfrz : l.mcResolve.2.2.1.isZero = false
        · exact mc_grow l hzero hcur hbase hch hfr hav hrem hfrz
        · have hfrz' : l.mcResolve.2.2.1.isZero = true := by simpa using hfrz
          have hcase := measureColumns_case l
          rw [hav, hrem, hfrz'] at hcase
          simp only [Bool.not_true, if_true, ite_false, Bool.false_eq_true] at hcase
          rw [hex] at hcase
          have hrp : l.mcResolve.2.2.2 = Case.purelyLinear ∨
              l.mcResolve.2.2.2 = Case.fitting :=
            resolvePass_case (l.regions.base.get l.inline) l.cols l.rcols Case.purelyLinear
          rcases hrp with h | h <;> rw [h] at hcase <;> exact absurd hcase (by decide)
      · exact (mc_shrink l hzero hcur hbase hch hav (by simpa using hrem)).1
    · have hav' : Length.ble Length.zero l.mcAvailable = false := by simpa using hav
      have hcase := measureColumns_case l
      rw [hav'] at hcase
      simp only [Bool.false_eq_true, if_false, ite_false] at hcase
      rw [hex] at hcase
      have hrp : l.mcResolve.2.2.2 = Case.purelyLinear ∨
          l.mcResolve.2.2.2 = Case.fitting :=
        resolvePass_case (l.regions.base.get l.inline) l.cols l.rcols Case.purelyLinear
      rcases hrp with h | h <;> rw [h] at hcase <;>
        simp at hcase <;> exact absurd hcase (by decide)
  · intro hav hrem
    exact (mc_shrink l hzero hcur hbase hch hav hrem).2

/-- C2 witness: the 1fr/2fr/1fr grid in a 400pt region resolves to columns
summing to the full 400pt region width. -/
theorem exact_case_rcols_sum_witness :
    Length.sum ((GridLayouter.new c2Grid (regionsOf 400 400)).measureColumns).1.rcols =
      (GridLayouter.new c2Grid (regionsOf 400 400)).mcCurrent ∧
    (GridLayouter.new c2Grid (regionsOf 400 400)).mcCurrent = Length.fin 400 ∧
    ((GridLayouter.new c2Grid (regionsOf 400 400)).measureColumns).1.rcols =
      [Length.fin 100, Length.fin 0, Length.fin 200, Length.fin 0, Length.fin 100] :=
  ⟨(exact_case_rcols_sum (GridLayouter.new c2Grid (regionsOf 400 400))
      (by decide) (by decide) (by decide)
      (fun node hn => absurd hn (List.not_mem_nil node))
      (by decide)).1 (by decide),
   by decide, by decide⟩

/-- C1: at the concrete Fitting-case input (a single auto column whose child
is 30pt wide, no fractional column, in a 100pt region) the source records
the inline minimum constraint from `used.inline` before `used.inline` is
assigned the sum of the resolved columns, so the recorded minimum is 0 while
the sum of the measured widths is 30pt. -/
theorem fitting_min_constraint_recorded_stale :
    ((GridLayouter.new c1Grid (regionsOf 100 100)).measureColumns).2 = Case.fitting ∧
    ((GridLayouter.new c1Grid (regionsOf 100 100)).measureColumns).1.constraints.min.get
      SpecAxis.horizontal = some (Length.fin 0) ∧
    Length.sum ((GridLayouter.new c1Grid (regionsOf 100 100)).measureColumns).1.rcols =
      Length.fin 30 ∧
    ((GridLayouter.new c1Grid (regionsOf 100 100)).measureColumns).1.used.inline =
      Length.fin 30 := by
  decide

/-- C3: at the concrete input (a single 1fr column in a region of infinite
inline size) the remaining space is infinite, yet the source only skips
non-finite ratios, so the fractional column is resolved to an infinite
width instead of being left unchanged at zero. -/
theorem grow_fractional_infinite_remaining_not_skipped :
    ((GridLayouter.new c3Grid c3Regions).measureColumns).1.rcols = [Length.inf] ∧
    ((GridLayouter.new c3Grid c3Regions).measureColumns).2 = Case.exact := by
  decide

/-- C4 counterexample: for the grid with block tracks `[Linear(10pt)]` and
two children in one column, the claim predicts that the missing second
content row track defaults to Auto, but track unification repeats the last
given entry, producing `Linear(10pt)`. -/
theorem track_default_counterexample :
    ((GridLayouter.new c4Grid (regionsOf 100 100)).rows[2]? ≠ some TrackSizing.Auto) ∧
    (GridLayouter.new c4Grid (regionsOf 100 100)).rows[2]? =
      some (TrackSizing.Linear ⟨10, 0⟩) := by
  decide

/-! ### Association list lemmas -/

theorem assocFind_isSome_iff [DecidableEq α] (m : List (α × β)) (k : α) :
    (assocFind m k).isSome = true ↔ k ∈ m.map Prod.fst := by
  induction m with
  | nil => simp [assocFind]
  | cons p rest ih =>
    by_cases h : p.1 = k
    · subst h
      simp [assocFind]
    · rw [show assocFind (p :: rest) k = assocFind rest k from by
        cases p; simp [assocFind, h]]
      simp [ih, h, Ne.symm h]

theorem assocFind_eq_none_iff [DecidableEq α] (m : List (α × β)) (k : α) :
    assocFind m k = none ↔ k ∉ m.map Prod.fst := by
  rw [← assocFind_isSome_iff]
  cases assocFind m k <;> simp

theorem assocFind_some_mem [DecidableEq α] (m : List (α × β)) (k : α) (v : β)
    (h : assocFind m k = some v) : (k, v) ∈ m := by
  induction m with
  | nil => simp [assocFind] at h
  | cons p rest ih =>
    cases p with
    | mk a b =>
      by_cases ha : a = k
      · subst ha
        simp [assocFind] at h
        simp [h]
      · simp only [assocFind, ha, if_false] at h
        simp [ih h]

theorem assocFind_of_mem_nodup [DecidableEq α] (m : List (α × β)) (k : α) (v : β)
    (hnd : (m.map Prod.fst).Nodup) (hmem : (k, v) ∈ m) : assocFind m k = some v := by
  induction m with
  | nil => simp at hmem
  | cons p rest ih =>
    cases p with
    | mk a b =>
      have hmap : (List.map Prod.fst ((a, b) :: rest)) = a :: rest.map Prod.fst := rfl
      rw [hmap] at hnd
      obtain ⟨hna, hnd2⟩ := List.nodup_cons.mp hnd
      rcases List.mem_cons.mp hmem with h | h
      · cases h
        simp [assocFind]
      · have ha : a ≠ k := by
          intro he
          subst he
          exact hna (List.mem_map.mpr ⟨(a, v), h, rfl⟩)
        simp only [assocFind, ha, if_false]
        exact ih hnd2 h

/-! ### The glyph-collection walk invariant -/

theorem walkStep_inv (w : SubsetWalk) (a : LayoutAction) (hw : walkInv w) :
    walkInv (walkStep w a) := by
  obtain ⟨h1, h2⟩ := hw
  cases a with
  | moveAbsolute pos => exact ⟨h1, h2⟩
  | debugBox => exact ⟨h1, h2⟩
  | writeText text => exact ⟨h1, h2⟩
  | setFont index size =>
    by_cases hfound : (assocFind w.oldToNew index).isSome = true
    · obtain ⟨v, hv⟩ := Option.isSome_iff_exists.mp hfound
      have hvmem : (index, v) ∈ w.oldToNew := assocFind_some_mem _ _ _ hv
      have hvkeys : v ∈ w.newToOld.map Prod.fst := by
        rw [h1]
        rw [List.map_map]
        exact List.mem_map.mpr ⟨(index, v), hvmem, rfl⟩
      have hnew : (assocFind w.newToOld ((assocFind w.oldToNew index).getD
          w.oldToNew.length)).isSome = true := by
        rw [hv]
        exact (assocFind_isSome_iff _ _).mpr hvkeys
      simp only [walkStep, hfound, if_true, hnew]
      exact ⟨h1, h2⟩
    · have hfound' : (assocFind w.oldToNew index).isSome = false := by
        simpa using hfound
      have hnone : assocFind w.oldToNew index = none := by
        cases hfa : assocFind w.oldToNew index with
        | none => rfl
        | some v => rw [hfa] at hfound'; simp at hfound'
      have hlenkey : w.oldToNew.length ∉ w.newToOld.map Prod.fst := by
        rw [h1, List.map_map]
        intro hmem
        obtain ⟨p, hp, hpk⟩ := List.mem_map.mp hmem
        have hmem2 : p.2 ∈ w.oldToNew.map Prod.snd := List.mem_map.mpr ⟨p, hp, rfl⟩
        rw [h2] at hmem2
        have hlt : p.2 < w.oldToNew.length := List.mem_range.mp hmem2
        simp only [Function.comp] at hpk
        omega
      have hnew : (assocFind w.newToOld ((assocFind w.oldToNew index).getD
          w.oldToNew.length)).isSome = false := by
        rw [hnone]
        simp only [Option.getD_none]
        cases hfn : assocFind w.newToOld w.oldToNew.length with
        | none => rfl
        | some v =>
          exact absurd ((assocFind_isSome_iff _ _).mp (by rw [hfn]; rfl)) hlenkey
      have hnew2 : (assocFind (List.map (fun p => (p.2, p.1)) w.oldToNew)
          w.oldToNew.length).isSome = false := by
        rw [← h1]
        rw [hnone] at hnew
        simpa using hnew
      constructor
      · simp only [walkStep, hnone, Option.isSome_none, Bool.false_eq_true, if_false,
          Option.getD_none, h1, hnew2]
        simp
      · simp only [walkStep, hnone, Option.isSome_none, Bool.false_eq_true, if_false,
          Option.getD_none, h1, hnew2]
        rw [List.map_append, h2]
        simp [List.range_succ]

theorem walkOf_inv (layouts : MultiLayout) : walkInv (walkOf layouts) := by
  unfold walkOf
  apply foldl_preserve walkInv
  · intro w layout hw
    exact foldl_preserve walkInv walkStep (fun w2 a hw2 => walkStep_inv w2 a hw2)
      layout.actions w hw
  · exact ⟨rfl, rfl⟩

/-! ### The subsetting loop -/

theorem subsetLoop_none_iff (loader : FontLoader) (order : List Char → List Char)
    (fontChars : List (FontIndex × List Char)) (newToOld : List (ℕ × FontIndex))
    (hbytes : ∀ bs, ∃ f, loader.fromBytes bs = Except.ok f) :
    ∀ (n idx : ℕ), (∀ j, j < n → (assocFind newToOld (idx + j)).isSome = true) →
      (subsetLoop loader order fontChars newToOld idx n = none ↔
        ∃ j, j < n ∧ ∃ old, assocFind newToOld (idx + j) = some old ∧
          assocFind fontChars old = none) := by
  intro n
  induction n with
  | zero =>
    intro idx _
    simp [subsetLoop]
  | succ n ih =>
    intro idx hfind
    obtain ⟨old, hold⟩ := Option.isSome_iff_exists.mp (by simpa using hfind 0 (by omega))
    have hfind2 : ∀ j, j < n → (assocFind newToOld (idx + 1 + j)).isSome = true := by
      intro j hj
      have := hfind (j + 1) (by omega)
      rwa [show idx + (j + 1) = idx + 1 + j from by omega] at this
    have hrec := ih (idx + 1) hfind2
    cases hchars : assocFind fontChars old with
    | none =>
      constructor
      · intro _
        exact ⟨0, by omega, old, by simpa using hold, hchars⟩
      · intro _
        simp [subsetLoop, hold, hchars]
    | some chars =>
      have hzero : ∀ (old2 : FontIndex),
          assocFind newToOld (idx + 0) = some old2 →
          assocFind fontChars old2 = none → False := by
        intro old2 ho hc
        rw [show idx + 0 = idx from rfl, hold] at ho
        cases ho
        rw [hchars] at hc
        cases hc
      cases hs : loader.subsetted (loader.get old) (order chars) subsetTables with
      | ok data =>
        obtain ⟨f2, hf2⟩ := hbytes data
        constructor
        · intro hnone
          simp only [subsetLoop, hold, hchars, hs, hf2] at hnone
          cases hr : subsetLoop loader order fontChars newToOld (idx + 1) n with
          | none =>
            obtain ⟨j, hj, old2, ho, hc⟩ := hrec.mp hr
            exact ⟨j + 1, by omega, old2,
              by rwa [show idx + (j + 1) = idx + 1 + j from by omega], hc⟩
          | some r =>
            rw [hr] at hnone
            cases r <;> simp at hnone
        · intro hj
          obtain ⟨j, hj2, old2, ho, hc⟩ := hj
          cases j with
          | zero => exact (hzero old2 ho hc).elim
          | succ j =>
            have hr : subsetLoop loader order fontChars newToOld (idx + 1) n = none :=
              hrec.mpr ⟨j, by omega, old2,
                by rwa [show idx + 1 + j = idx + (j + 1) from by omega], hc⟩
            simp [subsetLoop, hold, hchars, hs, hf2, hr]
      | error e =>
        constructor
        · intro hnone
          simp only [subsetLoop, hold, hchars, hs] at hnone
          cases hr : subsetLoop loader order fontChars newToOld (idx + 1) n with
          | none =>
            obtain ⟨j, hj, old2, ho, hc⟩ := hrec.mp hr
            exact ⟨j + 1, by omega, old2,
              by rwa [show idx + (j + 1) = idx + 1 + j from by omega], hc⟩
          | some r =>
            rw [hr] at hnone
            cases r <;> simp at hnone
        · intro hj
          obtain ⟨j, hj2, old2, ho, hc⟩ := hj
          cases j with
          | zero => exact (hzero old2 ho hc).elim
          | succ j =>
            have hr : subsetLoop loader order fontChars newToOld (idx + 1) n = none :=
              hrec.mpr ⟨j, by omega, old2,
                by rwa [show idx + 1 + j = idx + (j + 1) from by omega], hc⟩
            simp [subsetLoop, hold, hchars, hs, hr]

/-- C10: subsetting is total exactly under the precondition that every font
index selected by a SetFont action is the active font at some subsequent
WriteText across the layouts: `subset_fonts` panics (indexing the per-font
character map) if and only if some selected font has no collected character
set.  The hypothesis excludes the unrelated loader parse failure, which the
source surfaces as an error rather than a panic. -/
theorem subset_fonts_panic_iff (layouts : MultiLayout) (loader : FontLoader)
    (order : List Char → List Char)
    (hbytes : ∀ bs, ∃ f, loader.fromBytes bs = Except.ok f) :
    subsetFonts layouts loader order = none ↔
      ∃ p ∈ (walkOf layouts).oldToNew,
        assocFind (walkOf layouts).fontChars p.1 = none := by
  obtain ⟨h1, h2⟩ := walkOf_inv layouts
  have hkeys : (walkOf layouts).newToOld.map Prod.fst =
      List.range (walkOf layouts).oldToNew.length := by
    rw [h1, List.map_map]
    rw [show (Prod.fst ∘ fun p : FontIndex × ℕ => (p.2, p.1)) = Prod.snd from rfl]
    exact h2
  have hfind : ∀ j, j < (walkOf layouts).oldToNew.length →
      (assocFind (walkOf layouts).newToOld (0 + j)).isSome = true := by
    intro j hj
    rw [assocFind_isSome_iff, hkeys]
    simpa using hj
  have hiff := subsetLoop_none_iff loader order (walkOf layouts).fontChars
    (walkOf layouts).newToOld hbytes (walkOf layouts).oldToNew.length 0 hfind
  have hmain : subsetFonts layouts loader order = none ↔
      subsetLoop loader order (walkOf layouts).fontChars (walkOf layouts).newToOld 0
        (walkOf layouts).oldToNew.length = none := by
    cases hr : subsetLoop loader order (walkOf layouts).fontChars
        (walkOf layouts).newToOld 0 (walkOf layouts).oldToNew.length with
    | none => simp [subsetFonts, hr]
    | some r => cases r <;> simp [subsetFonts, hr]
  rw [hmain, hiff]
  constructor
  · intro hj
    obtain ⟨j, hj2, old, ho, hc⟩ := hj
    have hmem : (j, old) ∈ (walkOf layouts).newToOld := by
      apply assocFind_some_mem
      rwa [show (0 : ℕ) + j = j from by omega] at ho
    rw [h1] at hmem
    obtain ⟨p, hp, hpe⟩ := List.mem_map.mp hmem
    have hop : p.1 = old := by
      have := congrArg Prod.snd hpe
      simpa using this
    exact ⟨p, hp, by rwa [hop]⟩
  · intro hp
    obtain ⟨p, hp, hc⟩ := hp
    have hmem2 : (p.2, p.1) ∈ (walkOf layouts).newToOld := by
      rw [h1]
      exact List.mem_map.mpr ⟨p, hp, rfl⟩
    have hjlt : p.2 < (walkOf layouts).oldToNew.length := by
      have : p.2 ∈ (walkOf layouts).oldToNew.map Prod.snd :=
        List.mem_map.mpr ⟨p, hp, rfl⟩
      rw [h2] at this
      exact List.mem_range.mp this
    have hnd : ((walkOf layouts).newToOld.map Prod.fst).Nodup := by
      rw [hkeys]
      exact List.nodup_range _
    refine ⟨p.2, hjlt, p.1, ?_, hc⟩
    rw [show (0 : ℕ) + p.2 = p.2 from by omega]
    exact assocFind_of_mem_nodup _ _ _ hnd hmem2

/-- C10 witness: a SetFont for font 0 followed by a SetFont for font 1 and a
single WriteText leaves font 0 with no characters, and subsetting indeed
panics on that input. -/
theorem subset_fonts_panic_iff_witness :
    subsetFonts [pageTwoFonts] loaderFail (fun l => l) = none :=
  (subset_fonts_panic_iff [pageTwoFonts] loaderFail (fun l => l)
    (fun bs => ⟨pdfFont, rfl⟩)).mpr ⟨(0, 0), by decide, rfl⟩

/-! ### Fallback behaviour of the subsetting loop -/

theorem subsetLoop_fallback (loader : FontLoader) (order : List Char → List Char)
    (fontChars : List (FontIndex × List Char)) (newToOld : List (ℕ × FontIndex))
    (hmix : ∀ f cs, loader.subsetted f cs subsetTables = Except.error () ∨
      ∃ data f2, loader.subsetted f cs subsetTables = Except.ok data ∧
        loader.fromBytes data = Except.ok f2) :
    ∀ (n idx : ℕ),
      (∀ j, j < n → ∃ old chars, assocFind newToOld (idx + j) = some old ∧
        assocFind fontChars old = some chars) →
      ∃ fonts : List Font,
        subsetLoop loader order fontChars newToOld idx n = some (Except.ok fonts) ∧
        fonts.length = n ∧
        ∀ j, j < n → ∀ old chars, assocFind newToOld (idx + j) = some old →
          assocFind fontChars old = some chars →
          loader.subsetted (loader.get old) (order chars) subsetTables =
            Except.error () →
          fonts[j]? = some (loader.get old) := by
  intro n
  induction n with
  | zero =>
    intro idx _
    exact ⟨[], rfl, rfl, fun j hj => absurd hj (by omega)⟩
  | succ n ih =>
    intro idx hpres
    obtain ⟨old, chars, hold, hchars⟩ := hpres 0 (by omega)
    rw [show idx + 0 = idx from rfl] at hold
    have hpres2 : ∀ j, j < n → ∃ old chars,
        assocFind newToOld (idx + 1 + j) = some old ∧
        assocFind fontChars old = some chars := by
      intro j hj
      obtain ⟨o, c, h1, h2⟩ := hpres (j + 1) (by omega)
      exact ⟨o, c, by rwa [show idx + (j + 1) = idx + 1 + j from by omega] at h1, h2⟩
    obtain ⟨fonts, hloop, hlenf, hprop⟩ := ih (idx + 1) hpres2
    rcases hmix (loader.get old) (order chars) with hs | ⟨data, f2, hs, hb⟩
    · refine ⟨loader.get old :: fonts, ?_, by simpa using hlenf, ?_⟩
      · simp [subsetLoop, hold, hchars, hs, hloop]
      · intro j hj o c h1 h2 h3
        cases j with
        | zero =>
          rw [show idx + 0 = idx from rfl, hold] at h1
          cases h1
          simp
        | succ j =>
          rw [show idx + (j + 1) = idx + 1 + j from by omega] at h1
          simpa using hprop j (by omega) o c h1 h2 h3
    · refine ⟨f2 :: fonts, ?_, by simpa using hlenf, ?_⟩
      · simp [subsetLoop, hold, hchars, hs, hb, hloop]
      · intro j hj o c h1 h2 h3
        cases j with
        | zero =>
          rw [show idx + 0 = idx from rfl, hold] at h1
          cases h1
          rw [hchars] at h2
          cases h2
          rw [h3] at hs
          cases hs
        | succ j =>
          rw [show idx + (j + 1) = idx + 1 + j from by omega] at h1
          simpa using hprop j (by omega) o c h1 h2 h3

/-- C6: when a font's subsetting fails the exporter falls back to a clone of
the original unsubsetted font, and subsetting as a whole completes without an
error: under loaders whose subsetting either fails or parses back cleanly,
and with every selected font having a collected character set, subset_fonts
returns Ok, and every dense slot whose subsetting failed holds the original
loader font. -/
theorem subset_failure_falls_back (layouts : MultiLayout) (loader : FontLoader)
    (order : List Char → List Char)
    (hmix : ∀ f cs, loader.subsetted f cs subsetTables = Except.error () ∨
      ∃ data f2, loader.subsetted f cs subsetTables = Except.ok data ∧
        loader.fromBytes data = Except.ok f2)
    (hpre : ∀ p ∈ (walkOf layouts).oldToNew,
      (assocFind (walkOf layouts).fontChars p.1).isSome = true) :
    ∃ fonts,
      subsetFonts layouts loader order =
        some (Except.ok (fonts, (walkOf layouts).oldToNew)) ∧
      fonts.length = (walkOf layouts).oldToNew.length ∧
      ∀ j, j < fonts.length → ∀ old chars,
        assocFind (walkOf layouts).newToOld j = some old →
        assocFind (walkOf layouts).fontChars old = some chars →
        loader.subsetted (loader.get old) (order chars) subsetTables =
          Except.error () →
        fonts[j]? = some (loader.get old) := by
  obtain ⟨h1, h2⟩ := walkOf_inv layouts
  have hkeys : (walkOf layouts).newToOld.map Prod.fst =
      List.range (walkOf layouts).oldToNew.length := by
    rw [h1, List.map_map]
    rw [show (Prod.fst ∘ fun p : FontIndex × ℕ => (p.2, p.1)) = Prod.snd from rfl]
    exact h2
  have hpres : ∀ j, j < (walkOf layouts).oldToNew.length → ∃ old chars,
      assocFind (walkOf layouts).newToOld (0 + j) = some old ∧
      assocFind (walkOf layouts).fontChars old = some chars := by
    intro j hj
    have hsome : (assocFind (walkOf layouts).newToOld (0 + j)).isSome = true := by
      rw [assocFind_isSome_iff, hkeys]
      simpa using hj
    obtain ⟨old, hold⟩ := Option.isSome_iff_exists.mp hsome
    have hmem : (0 + j, old) ∈ (walkOf layouts).newToOld := assocFind_some_mem _ _ _ hold
    rw [h1] at hmem
    obtain ⟨p, hp, hpe⟩ := List.mem_map.mp hmem
    have hop : p.1 = old := by
      have := congrArg Prod.snd hpe
      simpa using this
    have hps := hpre p hp
    rw [hop] at hps
    obtain ⟨chars, hchars⟩ := Option.isSome_iff_exists.mp hps
    exact ⟨old, chars, hold, hchars⟩
  obtain ⟨fonts, hloop, hlenf, hprop⟩ := subsetLoop_fallback loader order
    (walkOf layouts).fontChars (walkOf layouts).newToOld hmix
    (walkOf layouts).oldToNew.length 0 hpres
  refine ⟨fonts, ?_, hlenf, ?_⟩
  · simp [subsetFonts, hloop]
  · intro j hj o c hh1 hh2 hh3
    rw [hlenf] at hj
    have := hprop j hj o c (by simpa using hh1) hh2 hh3
    exact this

/-- C6 witness: with a loader whose subsetting always fails, the one-font
export still subsets without error and keeps the original font. -/
theorem subset_failure_falls_back_witness :
    ∃ fonts,
      subsetFonts [pageAB] loaderFail (fun l => l) =
        some (Except.ok (fonts, (walkOf [pageAB]).oldToNew)) ∧
      fonts.length = (walkOf [pageAB]).oldToNew.length ∧
      ∀ j, j < fonts.length → ∀ old chars,
        assocFind (walkOf [pageAB]).newToOld j = some old →
        assocFind (walkOf [pageAB]).fontChars old = some chars →
        loaderFail.subsetted (loaderFail.get old) ((fun l => l) chars) subsetTables =
          Except.error () →
        fonts[j]? = some (loaderFail.get old) :=
  subset_failure_falls_back [pageAB] loaderFail (fun l => l)
    (fun f cs => Or.inl rfl) (by decide)

/-! ### Page stream emission -/

/-- C8: a WriteText action emits the absolute text matrix
`(1, 0, 0, 1, px, page_h - py - size)` if and only if a pending position was
set by a preceding MoveAbsolute (the pending position is cleared afterwards),
followed by the glyph-encoded string; and concretely, "AB" at (72pt, 720pt)
at size 12pt on an 842pt-high page yields the text matrix
`1 0 0 1 72 110`. -/
theorem write_text_matrix :
    (∀ (fonts : List Font) (remap : List (FontIndex × ℕ)) (pageH : ℚ)
        (s : PageState) (str : List Char) (font : Font) (bytes : List ℕ),
      fonts[s.activeFont.1]? = some font →
      font.encode str = some bytes →
      pageStep fonts remap pageH s (LayoutAction.writeText str) =
        some (Except.ok ({ s with nextPos := none },
          (match s.nextPos with
           | some pos => [TextOp.tm 1 0 0 1 pos.x (pageH - pos.y - s.activeFont.2)]
           | none => []) ++ [TextOp.tj bytes]))) ∧
    writePage [pdfFont] [(0, 0)] 6 pageAB =
      some (Except.ok (PdfObject.contentStream 6
        [TextOp.tf 1 12, TextOp.tm 1 0 0 1 72 110, TextOp.tj [65, 66]])) := by
  constructor
  · intro fonts remap pageH s str font bytes hfont henc
    cases s with
    | mk af np =>
      cases np with
      | some pos => simp [pageStep, hfont, henc]
      | none => simp [pageStep, hfont, henc]
  · decide

/-- C8 witness: the general WriteText step applied at the concrete state of
the scenario. -/
theorem write_text_matrix_witness :
    pageStep [pdfFont] [(0, 0)] 842
        { activeFont := (0, 12), nextPos := some ⟨72, 720⟩ }
        (LayoutAction.writeText ['A', 'B']) =
      some (Except.ok ({ activeFont := (0, 12), nextPos := none },
        [TextOp.tm 1 0 0 1 72 110, TextOp.tj [65, 66]])) :=
  write_text_matrix.1 [pdfFont] [(0, 0)] 842
    { activeFont := (0, 12), nextPos := some ⟨72, 720⟩ } ['A', 'B'] pdfFont
    [65, 66] rfl rfl

/-! ### Export determinism -/

/-- C5 counterexample: the export output depends on the order in which the
used-character set is enumerated (the HashSet iteration order, which varies
between runs): with a loader whose subsetting reflects the order of the
characters it receives, enumerating {A, B} forwards and backwards produces
different PDF object streams, hence different bytes. -/
theorem export_order_dependent :
    exportPdf [pageAB] loaderOrd (fun l => l) ≠
      exportPdf [pageAB] loaderOrd List.reverse := by
  decide

/-- C5 (amended): export is deterministic given the enumeration order of
each font's used-character set; two runs that enumerate the same sets (in
possibly different orders) produce identical output whenever the loader's
subsetting depends only on the set of characters, not their order. -/
theorem export_deterministic_of_order_invariant
    (layouts : MultiLayout) (loader : FontLoader) (o1 o2 : List Char → List Char)
    (hperm : ∀ l : List Char, (o1 l).Perm (o2 l))
    (hinv : ∀ f l1 l2, l1.Perm l2 →
      loader.subsetted f l1 subsetTables = loader.subsetted f l2 subsetTables) :
    exportPdf layouts loader o1 = exportPdf layouts loader o2 := by
  have hloop : ∀ (n idx : ℕ) (fontChars : List (FontIndex × List Char))
      (newToOld : List (ℕ × FontIndex)),
      subsetLoop loader o1 fontChars newToOld idx n =
        subsetLoop loader o2 fontChars newToOld idx n := by
    intro n
    induction n with
    | zero => intro idx fc nto; rfl
    | succ n ih =>
      intro idx fc nto
      cases hfo : assocFind nto idx with
      | none => simp [subsetLoop, hfo]
      | some old =>
        cases hc : assocFind fc old with
        | none => simp [subsetLoop, hfo, hc]
        | some chars =>
          simp only [subsetLoop, hfo, hc]
          rw [hinv (loader.get old) (o1 chars) (o2 chars) (hperm chars)]
          rw [ih (idx + 1) fc nto]
  have hsub : subsetFonts layouts loader o1 = subsetFonts layouts loader o2 := by
    simp only [subsetFonts]
    rw [hloop]
  simp only [exportPdf]
  rw [hsub]

/-- C5 witness: the amended determinism theorem applied to an
order-insensitive loader and the forward/backward enumerations. -/
theorem export_deterministic_witness :
    exportPdf [pageAB] loaderLen (fun l => l) =
      exportPdf [pageAB] loaderLen List.reverse :=
  export_deterministic_of_order_invariant [pageAB] loaderLen (fun l => l)
    List.reverse (fun l => (List.reverse_perm l).symm)
    (fun f l1 l2 h => by
      simp only [loaderLen]
      rw [h.length_eq])


/-- The offsets of `calculate_offsets` are the plain planned ranges whenever
the total object count fits in 32 bits. -/
theorem calcOffsets_eq (P F : ℕ) (h : 2 + 2 * P + 5 * F < 2 ^ 32) :
    calculateOffsets P F = plainOffsets P F := by
  have hPm : P % 2 ^ 32 = P := Nat.mod_eq_of_lt (by omega)
  have hFm : F % 2 ^ 32 = F := Nat.mod_eq_of_lt (by omega)
  simp only [calculateOffsets, plainOffsets, hPm, hFm, Offsets.mk.injEq,
    Prod.mk.injEq, true_and]
  omega

/-- The page id range `3 ..= 2+P` as a list. -/
theorem idsRange_pages (P : ℕ) : idsRange (3, 2 + P) = List.range' 3 P := by
  have h : 2 + P + 1 - 3 = P := by omega
  show List.range' 3 (2 + P + 1 - 3) = List.range' 3 P
  rw [h]

/-- The content id range `3+P ..= 2+2P` as a list. -/
theorem idsRange_contents (P : ℕ) :
    idsRange (3 + P, 2 + 2 * P) = List.range' (3 + P) P := by
  have h : 2 + 2 * P + 1 - (3 + P) = P := by omega
  show List.range' (3 + P) (2 + 2 * P + 1 - (3 + P)) = List.range' (3 + P) P
  rw [h]

/-- The skeletons of the page objects are the planned page/content pairs. -/
theorem pageObjs_skel (pt : ℕ) : ∀ (n a b : ℕ) (ls : List Layout),
    ls.length = n →
    (((List.range' a n).zip ((List.range' b n).zip ls)).map (fun pc =>
        PdfObject.page pc.1 pt (0, 0, pc.2.2.dimensions.x, pc.2.2.dimensions.y)
          pc.2.1)).filterMap skeleton
      = ((List.range' a n).zip (List.range' b n)).map
          (fun pc => (pc.1, ObjSkel.pageS pc.2)) := by
  intro n
  induction n with
  | zero => intro a b ls h; rfl
  | succ n ih =>
    intro a b ls h
    cases ls with
    | nil => exact absurd h (by simp)
    | cons l ls =>
      simp only [List.range'_succ, List.zip_cons_cons, List.map_cons,
        List.filterMap_cons, skeleton]
      rw [ih (a + 1) (b + 1) ls (by simpa using h)]

/-- Zipping the content ids with the pages and keeping the ids is just the
content id list. -/
theorem contentPairs_fst : ∀ (n b : ℕ) (ls : List Layout), ls.length = n →
    ((List.range' b n).zip ls).map (fun pr => (pr.1, ObjSkel.contentS))
      = (List.range' b n).map (fun i => (i, ObjSkel.contentS)) := by
  intro n
  induction n with
  | zero => intro b ls h; rfl
  | succ n ih =>
    intro b ls h
    cases ls with
    | nil => exact absurd h (by simp)
    | cons l ls =>
      simp only [List.range'_succ, List.zip_cons_cons, List.map_cons]
      rw [ih (b + 1) ls (by simpa using h)]

/-- The preface written at the planned offsets has exactly the planned
catalog, page tree and page skeletons. -/
theorem writePreface_skel (F : ℕ) (layouts : MultiLayout) :
    (writePreface (plainOffsets layouts.length F) F layouts).filterMap skeleton
      = (1, ObjSkel.catalogS 2) ::
        (2, ObjSkel.pageTreeS (List.range' 3 layouts.length)
          ((List.range F).map (fun i => (i + 1, 3 + 2 * layouts.length + 5 * i)))) ::
        ((List.range' 3 layouts.length).zip
            (List.range' (3 + layouts.length) layouts.length)).map
          (fun pc => (pc.1, ObjSkel.pageS pc.2)) := by
  simp only [writePreface,
    show (plainOffsets layouts.length F).fonts.1 = 3 + 2 * layouts.length from
      rfl,
    show (plainOffsets layouts.length F).pages = (3, 2 + layouts.length) from
      rfl,
    show (plainOffsets layouts.length F).contents
      = (3 + layouts.length, 2 + 2 * layouts.length) from rfl,
    show (plainOffsets layouts.length F).pageTree = 2 from rfl,
    show (plainOffsets layouts.length F).catalog = 1 from rfl,
    idsRange_pages, idsRange_contents]
  simp only [List.filterMap_cons, skeleton]
  rw [pageObjs_skel 2 layouts.length 3 (3 + layouts.length) layouts rfl]

/-- Each successfully written page contributes one content-stream skeleton
at its assigned id, in order. -/
theorem writePagesLoop_skel (fonts : List Font) (remap : List (FontIndex × ℕ)) :
    ∀ (pairs : List (ℕ × Layout)) (objs : List PdfObject),
      writePagesLoop fonts remap pairs = some (Except.ok objs) →
      objs.filterMap skeleton = pairs.map (fun pr => (pr.1, ObjSkel.contentS)) := by
  intro pairs
  induction pairs with
  | nil =>
    intro objs h
    simp only [writePagesLoop, Option.some.injEq, Except.ok.injEq] at h
    subst h
    rfl
  | cons pr rest ih =>
    intro objs h
    obtain ⟨id, page⟩ := pr
    cases hwp : writePage fonts remap id page with
    | none =>
      simp only [writePagesLoop, hwp] at h
      exact Option.noConfusion h
    | some r1 =>
      cases r1 with
      | error e =>
        simp only [writePagesLoop, hwp] at h
        exact Except.noConfusion (Option.some.inj h)
      | ok obj =>
        cases hrest : writePagesLoop fonts remap rest with
        | none =>
          simp only [writePagesLoop, hwp, hrest] at h
          exact Option.noConfusion h
        | some r2 =>
          cases r2 with
          | error e =>
            simp only [writePagesLoop, hwp, hrest] at h
            exact Except.noConfusion (Option.some.inj h)
          | ok more =>
            simp only [writePagesLoop, hwp, hrest, Option.some.injEq,
              Except.ok.injEq] at h
            subst h
            cases hpl : pageLoop fonts remap page.dimensions.y
                { activeFont := (usizeMax, 0), nextPos := none }
                page.actions with
            | none =>
              simp only [writePage, hpl] at hwp
              exact Option.noConfusion hwp
            | some rp =>
              cases rp with
              | error e =>
                simp only [writePage, hpl] at hwp
                exact Except.noConfusion (Option.some.inj hwp)
              | ok ops =>
                simp only [writePage, hpl, Option.some.injEq,
                  Except.ok.injEq] at hwp
                subst hwp
                simp only [List.filterMap_cons, skeleton, List.map_cons]
                rw [ih more hrest]

/-- Peeling the first font off the planned flat list of font skeletons. -/
theorem range_flatMap_skels (s : ℕ) : ∀ n : ℕ,
    (List.range (n + 1)).flatMap (fun i => plannedFontSkels (s + 5 * i))
      = plannedFontSkels s
          ++ (List.range n).flatMap (fun i => plannedFontSkels (s + 5 + 5 * i)) := by
  intro n
  induction n with
  | zero => rfl
  | succ n ih =>
    rw [List.range_succ (n + 1), List.flatMap_append, ih, List.range_succ n,
      List.flatMap_append]
    have hsing : ([n + 1] : List ℕ).flatMap (fun i => plannedFontSkels (s + 5 * i))
        = ([n] : List ℕ).flatMap (fun i => plannedFontSkels (s + 5 + 5 * i)) := by
      show plannedFontSkels (s + 5 * (n + 1)) ++ []
        = plannedFontSkels (s + 5 + 5 * n) ++ []
      have h : s + 5 * (n + 1) = s + 5 + 5 * n := by omega
      rw [h]
    rw [List.append_assoc, hsing]

/-- `write_fonts` emits, for each font in order, exactly the five planned
skeletons at ids advancing by five. -/
theorem writeFonts_skel : ∀ (fonts : List Font) (s : ℕ),
    (writeFonts s fonts).filterMap skeleton
      = (List.range fonts.length).flatMap (fun i => plannedFontSkels (s + 5 * i)) := by
  intro fonts
  induction fonts with
  | nil => intro s; rfl
  | cons f fs ih =>
    intro s
    rw [show writeFonts s (f :: fs) = fontObjects s f ++ writeFonts (s + 5) fs
      from rfl]
    rw [List.filterMap_append, ih (s + 5)]
    rw [show (fontObjects s f).filterMap skeleton = plannedFontSkels s from rfl]
    rw [show (f :: fs).length = fs.length + 1 from rfl]
    rw [range_flatMap_skels s fs.length]

/-- The planned flat list of font skeletons has five entries per font. -/
theorem plannedSkelsLen (s : ℕ) : ∀ F : ℕ,
    ((List.range F).flatMap (fun i => plannedFontSkels (s + 5 * i))).length
      = 5 * F := by
  intro F
  induction F with
  | zero => rfl
  | succ n ih =>
    rw [List.range_succ, List.flatMap_append, List.length_append, ih]
    rw [show (([n] : List ℕ).flatMap
      (fun i => plannedFontSkels (s + 5 * i))).length = 5 from rfl]
    omega

/-- C7: for every successful export with `P` pages and `F` subsetted fonts
whose object count `2 + 2P + 5F` fits in 32 bits, the numbered objects of
the output follow the planned id assignment exactly: catalog 1 referencing
page tree 2, page tree 2 listing pages `3 .. 3+P-1` and one resource per
font at its planned base id, page objects `3 .. 3+P-1` each referencing its
content stream `3+P .. 3+2P-1` in order, the content streams at those ids,
and five objects per font from `3+2P` on in the order Type0, CIDFont,
FontDescriptor, ToUnicode CMap, FontFile with every cross-reference at its
planned id; the numbered-object count is `2 + 2P + 5F`; and
`calculate_offsets` computes exactly those ranges before writing. -/
theorem object_ids_planned (layouts : MultiLayout) (loader : FontLoader)
    (order : List Char → List Char) (fonts : List Font)
    (remap : List (FontIndex × ℕ)) (objs : List PdfObject)
    (hbound : 2 + 2 * layouts.length + 5 * fonts.length < 2 ^ 32)
    (hsub : subsetFonts layouts loader order = some (Except.ok (fonts, remap)))
    (hexp : exportPdf layouts loader order = some (Except.ok objs)) :
    objs.filterMap skeleton = plannedObjects layouts.length fonts.length ∧
    (objs.filterMap skeleton).length
      = 2 + 2 * layouts.length + 5 * fonts.length ∧
    calculateOffsets layouts.length fonts.length =
      { catalog := 1, pageTree := 2, pages := (3, 2 + layouts.length),
        contents := (3 + layouts.length, 2 + 2 * layouts.length),
        fonts := (3 + 2 * layouts.length,
          2 + 2 * layouts.length + 5 * fonts.length) } := by
  have hoff := calcOffsets_eq layouts.length fonts.length hbound
  have hmain : objs.filterMap skeleton
      = plannedObjects layouts.length fonts.length := by
    simp only [exportPdf, hsub] at hexp
    rw [hoff] at hexp
    simp only [writePages,
      show (plainOffsets layouts.length fonts.length).contents
        = (3 + layouts.length, 2 + 2 * layouts.length) from rfl,
      idsRange_contents] at hexp
    cases hw : writePagesLoop fonts remap
        ((List.range' (3 + layouts.length) layouts.length).zip layouts) with
    | none =>
      rw [hw] at hexp
      simp at hexp
    | some r =>
      cases r with
      | error e =>
        rw [hw] at hexp
        simp at hexp
      | ok pages =>
        rw [hw] at hexp
        simp only [Option.some.injEq, Except.ok.injEq] at hexp
        subst hexp
        have hpref := writePreface_skel fonts.length layouts
        have hpages := writePagesLoop_skel fonts remap
          ((List.range' (3 + layouts.length) layouts.length).zip layouts)
          pages hw
        rw [contentPairs_fst layouts.length (3 + layouts.length) layouts rfl]
          at hpages
        simp only [List.filterMap_cons, skeleton, List.filterMap_append,
          List.filterMap_nil, List.append_nil,
          show (plainOffsets layouts.length fonts.length).fonts.1
            = 3 + 2 * layouts.length from rfl]
        rw [hpref, hpages, writeFonts_skel fonts (3 + 2 * layouts.length)]
        simp only [plannedObjects, List.cons_append]
  refine ⟨hmain, ?_, hoff⟩
  rw [hmain]
  simp only [plannedObjects, List.length_cons, List.length_append,
    List.length_map, List.length_zip, List.length_range',
    plannedSkelsLen (3 + 2 * layouts.length) fonts.length]
  omega

/-- C7 witness: the one-page, one-font export follows the plan, with
`calculate_offsets` giving catalog 1, page tree 2, page 3, content 4 and
fonts from 5. -/
theorem object_ids_planned_witness :
    c7Objs.filterMap skeleton = plannedObjects 1 c7Fonts.length ∧
    (c7Objs.filterMap skeleton).length = 2 + 2 * 1 + 5 * c7Fonts.length ∧
    calculateOffsets 1 c7Fonts.length =
      { catalog := 1, pageTree := 2, pages := (3, 2 + 1),
        contents := (3 + 1, 2 + 2 * 1),
        fonts := (3 + 2 * 1, 2 + 2 * 1 + 5 * c7Fonts.length) } :=
  object_ids_planned [pageAB] loaderOrd (fun l => l) c7Fonts c7Remap c7Objs
    (by decide) rfl rfl


end Typst
